import Mathlib

/-!
# KobolVCO: the morphing oscillator

A shallow embedding of `Source/Oscillator.cpp`, and of the buffer splitting of
`Source/PluginProcessor.cpp`.  The C++ `float` values are
modelled by the elements of an arbitrary linearly ordered field `α`, so every
definition can be evaluated over `ℚ` and every theorem can be read over `ℝ`
(exact arithmetic: rounding, infinities and NaN are outside the model, and a
division by zero follows the field convention `x / 0 = 0`; the statements
below only divide by non-zero quantities).  The literals `0.0f`, `1.0f` and
`2.0f` are written `0`, `1` and `2`.

The class members `splitPointA` and `splitPointB` are declared in
`Oscillator.h`; their values are taken as parameters of the functions that
read them.
-/

namespace KobolVCO

/-- The data members of `class Oscillator` that `Oscillator.cpp` reads or writes. -/
structure Oscillator (α : Type) where
  phase : α
  inc : α
  amplitude : α
  rectThreshold : α
  rectGain : α
  compThreshold : α
  compGain : α

variable {α : Type} [LinearOrderedField α]

/-- The constructor `Oscillator::Oscillator()`: it assigns `phase` and the four
derived fields; `inc` and `amplitude` are owned by the caller and are whatever
the caller stored. -/
def Oscillator.init (inc amplitude : α) : Oscillator α :=
  { phase := 0
    inc := inc
    amplitude := amplitude
    rectThreshold := 0.5
    rectGain := 1
    compThreshold := 0
    compGain := 0 }

/-- The method `Oscillator::reset()`. -/
def reset (s : Oscillator α) : Oscillator α :=
  { s with
    rectThreshold := 0.5
    rectGain := 1
    compThreshold := 0
    compGain := 0 }

/-- The method `Oscillator::setWaveformParameters(float value)`. -/
def setWaveformParameters (splitPointA splitPointB : α) (s : Oscillator α) (value : α) :
    Oscillator α :=
  if value < splitPointA then
    let currentSplitPosition := value / splitPointA
    { s with
      rectThreshold := currentSplitPosition
      rectGain := 1
      compGain := 0
      compThreshold := 0 }
  else if value ≤ splitPointB then
    let currentSplitPosition := (value - splitPointA) / (splitPointB - splitPointA)
    { s with
      rectThreshold := 1
      rectGain := 1 - currentSplitPosition
      compThreshold := 0
      compGain := currentSplitPosition }
  else
    let currentSplitPosition :=
      (splitPointB - value - 0.5 - (0.6 * (value - splitPointB))) / (1.2 - splitPointB)
    { s with
      rectThreshold := 1
      rectGain := 0
      compThreshold := currentSplitPosition
      compGain := 1 }

/-- The local variable `currentSplitPosition` of `setWaveformParameters`, in
whichever of the three branches `value` selects. -/
def currentSplitPosition (splitPointA splitPointB value : α) : α :=
  if value < splitPointA then
    value / splitPointA
  else if value ≤ splitPointB then
    (value - splitPointA) / (splitPointB - splitPointA)
  else
    (splitPointB - value - 0.5 - (0.6 * (value - splitPointB))) / (1.2 - splitPointB)

/-- The method `Oscillator::rectifier(float inputSample, float threshold)`. -/
def rectifier (inputSample threshold : α) : α :=
  let outputSample :=
    if inputSample ≤ threshold then
      inputSample
    else
      threshold - (threshold + 1) * inputSample
  outputSample + (1 - threshold) / 2

/-- The method `Oscillator::comparator(float inputSample, float threshold, float position)`. -/
def comparator (splitPointB inputSample threshold position : α) : α :=
  let threshold := (threshold + 0.2) * 0.4
  if position < splitPointB then
    if inputSample > threshold then -1 else 1
  else
    if inputSample > threshold then 0 else 1

/-- The method `Oscillator::nextSample(float position)`: the returned sample
together with the state the call leaves behind. -/
def nextSample (splitPointA splitPointB : α) (s : Oscillator α) (position : α) :
    α × Oscillator α :=
  let s := setWaveformParameters splitPointA splitPointB s position
  let s := { s with phase := s.phase + s.inc }
  let s := if s.phase ≥ 1 then { s with phase := s.phase - 1 } else s
  let sawtoothSginal := 2 * s.phase - 1
  let rectSignal := rectifier sawtoothSginal s.rectThreshold
  let rectSignal := rectSignal * s.rectGain
  let compSignal := comparator splitPointB sawtoothSginal s.compThreshold position
  let compSignal := compSignal * s.compGain
  (s.amplitude * (rectSignal + compSignal) / 2, s)

/-- Successive calls of `nextSample`, one per control position of the list:
the samples returned, in order, and the final state. -/
def nextSamples (splitPointA splitPointB : α) (s : Oscillator α) :
    List α → List α × Oscillator α
  | [] => ([], s)
  | position :: rest =>
    let r := nextSample splitPointA splitPointB s position
    let q := nextSamples splitPointA splitPointB r.2 rest
    (r.1 :: q.1, q.2)

/-- The four fields that `setWaveformParameters` assigns, as a tuple
`(rectThreshold, rectGain, compThreshold, compGain)`. -/
def waveformParameters (splitPointA splitPointB : α) (s : Oscillator α) (value : α) :
    α × α × α × α :=
  ((setWaveformParameters splitPointA splitPointB s value).rectThreshold,
   (setWaveformParameters splitPointA splitPointB s value).rectGain,
   (setWaveformParameters splitPointA splitPointB s value).compThreshold,
   (setWaveformParameters splitPointA splitPointB s value).compGain)

/-- The sample that `nextSample position` returns, as a function of the phase
stored in the state before the call: the generated waveform along the phase. -/
def waveform (splitPointA splitPointB : α) (s : Oscillator α) (position phase : α) : α :=
  (nextSample splitPointA splitPointB { s with phase := phase } position).1

/-! ## The plugin processor: `Source/PluginProcessor.cpp`

The C++ `int` values are modelled in `ℤ`.  The loop keeps `bufferOffset` in
`[0, N]` (`splitLoop_invariant`), so with sample positions in `[0, N]` every
difference it computes lies in `[-N, N]` and no `int` operation overflows. -/

/-- One entry of the `juce::MidiBuffer` as the loop of `splitBufferByEvents` reads
it: the message bytes, their count `numBytes` and the `samplePosition`. -/
structure MidiMessageMetadata where
  data : List Nat
  numBytes : Int
  samplePosition : Int

/-- A write position in a `juce::AudioBuffer<float>`: a channel and a sample index
in it.  `buffer.getWritePointer(c)` is `⟨c, 0⟩`, and adding `n` to a pointer moves
the sample index by `n`. -/
structure WritePointer where
  channel : Nat
  sample : Int
  deriving DecidableEq

/-- The start of a channel: `buffer.getWritePointer(channel)`. -/
def getWritePointer (channel : Nat) : WritePointer :=
  ⟨channel, 0⟩

/-- Pointer arithmetic `pointer + n` on a write position. -/
def WritePointer.add (pointer : WritePointer) (n : Int) : WritePointer :=
  ⟨pointer.channel, pointer.sample + n⟩

/-- The sample indices of its channel that `sampleCount` consecutive samples
written from a write position cover, as the half-open interval
`[sample, sample + sampleCount)`. -/
def WritePointer.range (pointer : WritePointer) (sampleCount : Int) : Finset Int :=
  Finset.Ico pointer.sample (pointer.sample + sampleCount)

/-- The method `KobolVCOAudioProcessor::render`: the array `outputBuffers`
(`none` for `nullptr`) and the sample count that it hands to `synth.render`.
The result of `getTotalNumOutputChannels()` is a parameter. -/
def render (totalNumOutputChannels : Int) (sampleCount bufferOffset : Int) :
    (Option WritePointer × Option WritePointer) × Int :=
  let outputBuffers : Option WritePointer × Option WritePointer := (none, none)
  let outputBuffers := (some ((getWritePointer 0).add bufferOffset), outputBuffers.2)
  let outputBuffers :=
    if totalNumOutputChannels > 1 then
      (outputBuffers.1, some (getWritePointer 1))
    else outputBuffers
  (outputBuffers, sampleCount)

/-- The calls that `splitBufferByEvents` makes. -/
inductive Call where
  | render (sampleCount bufferOffset : Int)
  | handleMIDI (data0 data1 data2 : Nat)
  deriving DecidableEq

/-- One iteration of the `for` loop of `splitBufferByEvents`, on the pair of
`bufferOffset` and the calls made so far. -/
def splitStep (st : Int × List Call) (metadata : MidiMessageMetadata) : Int × List Call :=
  let samplesThisSegment := metadata.samplePosition - st.1
  let st : Int × List Call :=
    if samplesThisSegment > 0 then
      (st.1 + samplesThisSegment, st.2 ++ [Call.render samplesThisSegment st.1])
    else st
  if metadata.numBytes ≤ 3 then
    let data1 := if metadata.numBytes ≥ 2 then metadata.data.getD 1 0 else 0
    let data2 := if metadata.numBytes = 3 then metadata.data.getD 2 0 else 0
    (st.1, st.2 ++ [Call.handleMIDI (metadata.data.getD 0 0) data1 data2])
  else st

/-- The method `KobolVCOAudioProcessor::splitBufferByEvents`, for a buffer of
`numSamples` samples: the calls of `render` and `handleMIDI` it makes, in order. -/
def splitBufferByEvents (numSamples : Int) (midiMessages : List MidiMessageMetadata) :
    List Call :=
  let st := midiMessages.foldl splitStep (0, [])
  let samplesLastSegment := numSamples - st.1
  if samplesLastSegment > 0 then
    st.2 ++ [Call.render samplesLastSegment st.1]
  else st.2

/-- The `render` calls of a call sequence, as pairs `(sampleCount, bufferOffset)`. -/
def renderCalls : List Call → List (Int × Int)
  | [] => []
  | Call.render sampleCount bufferOffset :: rest => (sampleCount, bufferOffset) :: renderCalls rest
  | Call.handleMIDI _ _ _ :: rest => renderCalls rest

/-- The `handleMIDI` calls of a call sequence. -/
def handleCalls : List Call → List (Nat × Nat × Nat)
  | [] => []
  | Call.render _ _ :: rest => handleCalls rest
  | Call.handleMIDI data0 data1 data2 :: rest => (data0, data1, data2) :: handleCalls rest

/-- The number of samples rendered by a call sequence. -/
def renderedSamples (calls : List Call) : Int :=
  ((renderCalls calls).map Prod.fst).sum

/-- The arguments of `handleMIDI` for an event of at most three bytes. -/
def midiBytes (metadata : MidiMessageMetadata) : Nat × Nat × Nat :=
  (metadata.data.getD 0 0,
   if metadata.numBytes ≥ 2 then metadata.data.getD 1 0 else 0,
   if metadata.numBytes = 3 then metadata.data.getD 2 0 else 0)

/-- Render calls `(sampleCount, bufferOffset)` that tile the samples from
`start` on: each count is positive and each offset is where the previous call
stopped. -/
def Tiling : Int → List (Int × Int) → Prop
  | _, [] => True
  | start, r :: rest => 0 < r.1 ∧ r.2 = start ∧ Tiling (start + r.1) rest

/-! ## Frame lemmas -/

theorem setWaveformParameters_phase (a b : α) (s : Oscillator α) (v : α) :
    (setWaveformParameters a b s v).phase = s.phase := by
  unfold setWaveformParameters
  split_ifs <;> rfl

theorem setWaveformParameters_inc (a b : α) (s : Oscillator α) (v : α) :
    (setWaveformParameters a b s v).inc = s.inc := by
  unfold setWaveformParameters
  split_ifs <;> rfl

theorem setWaveformParameters_amplitude (a b : α) (s : Oscillator α) (v : α) :
    (setWaveformParameters a b s v).amplitude = s.amplitude := by
  unfold setWaveformParameters
  split_ifs <;> rfl

/-- The phase that a call of `nextSample` leaves behind. -/
theorem nextSample_phase (a b : α) (s : Oscillator α) (p : α) :
    (nextSample a b s p).2.phase =
      if s.phase + s.inc ≥ 1 then s.phase + s.inc - 1 else s.phase + s.inc := by
  simp only [nextSample, setWaveformParameters_phase, setWaveformParameters_inc]
  split_ifs <;> rfl

theorem nextSample_inc (a b : α) (s : Oscillator α) (p : α) :
    (nextSample a b s p).2.inc = s.inc := by
  simp only [nextSample, setWaveformParameters_phase, setWaveformParameters_inc]
  split_ifs <;> simp [setWaveformParameters_inc]

theorem nextSample_amplitude (a b : α) (s : Oscillator α) (p : α) :
    (nextSample a b s p).2.amplitude = s.amplitude := by
  simp only [nextSample, setWaveformParameters_phase, setWaveformParameters_inc]
  split_ifs <;> simp [setWaveformParameters_amplitude]

/-- One call keeps the phase in `[0, 1)` when the increment is in `[0, 1)`. -/
theorem nextSample_phase_mem (a b : α) (s : Oscillator α) (p : α)
    (hi0 : 0 ≤ s.inc) (hi1 : s.inc < 1) (hp0 : 0 ≤ s.phase) (hp1 : s.phase < 1) :
    0 ≤ (nextSample a b s p).2.phase ∧ (nextSample a b s p).2.phase < 1 := by
  rw [nextSample_phase]
  split_ifs with h
  · constructor <;> linarith
  · exact ⟨by linarith, not_le.mp h⟩

theorem nextSamples_inc (a b : α) (ps : List α) (s : Oscillator α) :
    (nextSamples a b s ps).2.inc = s.inc := by
  induction ps generalizing s with
  | nil => rfl
  | cons p ps ih => simp only [nextSamples, ih, nextSample_inc]

theorem nextSamples_amplitude (a b : α) (ps : List α) (s : Oscillator α) :
    (nextSamples a b s ps).2.amplitude = s.amplitude := by
  induction ps generalizing s with
  | nil => rfl
  | cons p ps ih => simp only [nextSamples, ih, nextSample_amplitude]

/-- Any number of calls keeps the phase in `[0, 1)`. -/
theorem nextSamples_phase_mem (a b : α) (ps : List α) (s : Oscillator α)
    (hi0 : 0 ≤ s.inc) (hi1 : s.inc < 1) (hp0 : 0 ≤ s.phase) (hp1 : s.phase < 1) :
    0 ≤ (nextSamples a b s ps).2.phase ∧ (nextSamples a b s ps).2.phase < 1 := by
  induction ps generalizing s with
  | nil => exact ⟨hp0, hp1⟩
  | cons p ps ih =>
    have h := nextSample_phase_mem a b s p hi0 hi1 hp0 hp1
    simp only [nextSamples]
    exact ih _ (by rw [nextSample_inc]; exact hi0) (by rw [nextSample_inc]; exact hi1) h.1 h.2

/-! ## Position zero: the rectified ramp -/

/-- The state after the calls for `ps ++ qs` is the state after the calls for
`qs` made from the state after the calls for `ps`. -/
theorem nextSamples_append_state (a b : α) (ps qs : List α) (s : Oscillator α) :
    (nextSamples a b s (ps ++ qs)).2 = (nextSamples a b (nextSamples a b s ps).2 qs).2 := by
  induction ps generalizing s with
  | nil => rfl
  | cons p ps ih =>
    rw [List.cons_append]
    simp only [nextSamples]
    exact ih _

theorem nextSamples_singleton_state (a b : α) (p : α) (s : Oscillator α) :
    (nextSamples a b s [p]).2 = (nextSample a b s p).2 := rfl

theorem nextSamples_length (a b : α) (ps : List α) (s : Oscillator α) :
    (nextSamples a b s ps).1.length = ps.length := by
  induction ps generalizing s with
  | nil => rfl
  | cons p ps ih => simp only [nextSamples, List.length_cons, ih]

/-- The sample returned by call number `k` (counted from zero) is the one
`nextSample` returns from the state left by the first `k` calls. -/
theorem nextSamples_getElem_opt (a b : α) (ps : List α) (s : Oscillator α) (k : ℕ) :
    (nextSamples a b s ps).1[k]? =
      (ps[k]?).map (fun p => (nextSample a b (nextSamples a b s (ps.take k)).2 p).1) := by
  induction ps generalizing s k with
  | nil => simp [nextSamples]
  | cons p ps ih =>
    cases k with
    | zero => simp [nextSamples]
    | succ k => simp [nextSamples, ih]

/-- At position `0` (Region A, `splitPointA > 0`) the sample is the rectified
ramp alone. -/
theorem nextSample_zero (a b : α) (ha : 0 < a) (s : Oscillator α) :
    (nextSample a b s 0).1 =
      s.amplitude * (1 / 2 - |2 * (nextSample a b s 0).2.phase - 1|) / 2 := by
  have key : ∀ x : α, rectifier x 0 = 1 / 2 - |x| := by
    intro x
    unfold rectifier
    by_cases hx : x ≤ 0
    · simp only [if_pos hx, abs_of_nonpos hx]; ring
    · simp only [if_neg hx, abs_of_pos (not_le.mp hx)]; ring
  simp only [nextSample, setWaveformParameters, if_pos ha, zero_div]
  split_ifs <;> simp [key]

/-- Calls at position `0` with increment `1/100`: while no wrap occurs the phase
counts hundredths. -/
theorem nextSamples_zero_phase (a b : α) (n m : ℕ) (s : Oscillator α)
    (hinc : s.inc = 1 / 100) (hphase : s.phase = (m : α) / 100) (hmn : m + n ≤ 99) :
    (nextSamples a b s (List.replicate n 0)).2.phase = ((m + n : ℕ) : α) / 100 := by
  induction n generalizing s m with
  | zero => simpa [nextSamples] using hphase
  | succ n ih =>
    simp only [List.replicate_succ, nextSamples]
    have hlt : ((m + 1 : ℕ) : α) < 100 := by
      have : m + 1 < 100 := by omega
      exact_mod_cast this
    have hstep : (nextSample a b s 0).2.phase = ((m + 1 : ℕ) : α) / 100 := by
      rw [nextSample_phase, hinc, hphase]
      have hsum : (m : α) / 100 + 1 / 100 = ((m + 1 : ℕ) : α) / 100 := by
        push_cast; ring
      rw [hsum, if_neg]
      rw [ge_iff_le, not_le, div_lt_one (by norm_num)]
      exact hlt
    have := ih (m + 1) (nextSample a b s 0).2 (by rw [nextSample_inc, hinc]) hstep (by omega)
    rw [this]
    congr 2
    omega

/-! ## Closed forms of the mapped parameters -/

theorem rectThreshold_closed (a b : α) (ha : 0 < a) (s : Oscillator α) (v : α) :
    (setWaveformParameters a b s v).rectThreshold = min (v / a) 1 := by
  unfold setWaveformParameters
  split_ifs with h1 h2
  · exact (min_eq_left (le_of_lt ((div_lt_one ha).mpr h1))).symm
  · exact (min_eq_right ((one_le_div ha).mpr (not_lt.mp h1))).symm
  · exact (min_eq_right ((one_le_div ha).mpr (not_lt.mp h1))).symm

theorem compGain_closed (a b : α) (hab : a < b) (s : Oscillator α) (v : α) :
    (setWaveformParameters a b s v).compGain = min (max ((v - a) / (b - a)) 0) 1 := by
  have hba : 0 < b - a := sub_pos.mpr hab
  unfold setWaveformParameters
  split_ifs with h1 h2
  · have : (v - a) / (b - a) ≤ 0 :=
      div_nonpos_of_nonpos_of_nonneg (by linarith) (le_of_lt hba)
    simp [max_eq_right this]
  · have h0 : 0 ≤ (v - a) / (b - a) := div_nonneg (by linarith [not_lt.mp h1]) (le_of_lt hba)
    have h1' : (v - a) / (b - a) ≤ 1 := (div_le_one hba).mpr (by linarith)
    simp [max_eq_left h0, min_eq_left h1']
  · have h1' : 1 ≤ (v - a) / (b - a) := (one_le_div hba).mpr (by linarith [not_le.mp h2])
    have h0 : 0 ≤ (v - a) / (b - a) := le_trans zero_le_one h1'
    simp [max_eq_left h0, min_eq_right h1']

theorem rectGain_closed (a b : α) (hab : a < b) (s : Oscillator α) (v : α) :
    (setWaveformParameters a b s v).rectGain = 1 - min (max ((v - a) / (b - a)) 0) 1 := by
  have hba : 0 < b - a := sub_pos.mpr hab
  unfold setWaveformParameters
  split_ifs with h1 h2
  · have : (v - a) / (b - a) ≤ 0 :=
      div_nonpos_of_nonpos_of_nonneg (by linarith) (le_of_lt hba)
    simp [max_eq_right this]
  · have h0 : 0 ≤ (v - a) / (b - a) := div_nonneg (by linarith [not_lt.mp h1]) (le_of_lt hba)
    have h1' : (v - a) / (b - a) ≤ 1 := (div_le_one hba).mpr (by linarith)
    simp [max_eq_left h0, min_eq_left h1']
  · have h1' : 1 ≤ (v - a) / (b - a) := (one_le_div hba).mpr (by linarith [not_le.mp h2])
    have h0 : 0 ≤ (v - a) / (b - a) := le_trans zero_le_one h1'
    simp [max_eq_left h0, min_eq_right h1']

theorem compThreshold_of_le (a b : α) (s : Oscillator α) (v : α) (hv : v ≤ b) :
    (setWaveformParameters a b s v).compThreshold = 0 := by
  unfold setWaveformParameters
  split_ifs <;> rfl

theorem compThreshold_of_gt (a b : α) (hab : a ≤ b) (s : Oscillator α) (v : α) (hv : b < v) :
    (setWaveformParameters a b s v).compThreshold =
      (b - v - 0.5 - (0.6 * (v - b))) / (1.2 - b) := by
  unfold setWaveformParameters
  rw [if_neg (not_lt.mpr (le_trans hab (le_of_lt hv))), if_neg (not_le.mpr hv)]

/-- The value of the local `currentSplitPosition` is the field that each branch
of `setWaveformParameters` stores it in. -/
theorem setWaveformParameters_currentSplitPosition (a b : α) (s : Oscillator α) (v : α) :
    (v < a → (setWaveformParameters a b s v).rectThreshold = currentSplitPosition a b v) ∧
    (a ≤ v → v ≤ b → (setWaveformParameters a b s v).compGain = currentSplitPosition a b v) ∧
    (a ≤ v → b < v →
      (setWaveformParameters a b s v).compThreshold = currentSplitPosition a b v) := by
  refine ⟨fun h => ?_, fun h1 h2 => ?_, fun h1 h2 => ?_⟩
  · simp [setWaveformParameters, currentSplitPosition, h]
  · simp [setWaveformParameters, currentSplitPosition, not_lt.mpr h1, h2]
  · simp [setWaveformParameters, currentSplitPosition, not_lt.mpr h1, not_le.mpr h2]

/-! ## The sample combiner -/

/-- The sample returned by `nextSample`, in terms of the mapped parameters and of
the sawtooth of the advanced phase. -/
theorem nextSample_fst (a b : α) (s : Oscillator α) (p : α) :
    (nextSample a b s p).1 =
      s.amplitude *
        (rectifier (2 * (nextSample a b s p).2.phase - 1)
            (setWaveformParameters a b s p).rectThreshold
            * (setWaveformParameters a b s p).rectGain
          + comparator b (2 * (nextSample a b s p).2.phase - 1)
              (setWaveformParameters a b s p).compThreshold p
            * (setWaveformParameters a b s p).compGain) / 2 := by
  simp only [nextSample]
  split_ifs <;> simp [setWaveformParameters_amplitude]

/-- The mapper overwrites all four derived fields: its result depends on the
state only through `phase`, `inc` and `amplitude`. -/
theorem setWaveformParameters_congr (a b : α) (s₁ s₂ : Oscillator α) (v : α)
    (hp : s₁.phase = s₂.phase) (hi : s₁.inc = s₂.inc) (ha : s₁.amplitude = s₂.amplitude) :
    setWaveformParameters a b s₁ v = setWaveformParameters a b s₂ v := by
  cases s₁
  cases s₂
  simp only at hp hi ha
  subst hp hi ha
  unfold setWaveformParameters
  split_ifs <;> rfl

theorem nextSample_congr (a b : α) (s₁ s₂ : Oscillator α) (p : α)
    (h : setWaveformParameters a b s₁ p = setWaveformParameters a b s₂ p) :
    nextSample a b s₁ p = nextSample a b s₂ p := by
  simp only [nextSample, h]

/-- The rectifier output stays in `[-(1 + T)/2, (1 + T)/2]` for a threshold
`T ≥ 0` and an input in `[-1, 1]`. -/
theorem rectifier_mem (x T : α) (hT0 : 0 ≤ T) (hx0 : -1 ≤ x) (hx1 : x ≤ 1) :
    -(1 + T) / 2 ≤ rectifier x T ∧ rectifier x T ≤ (1 + T) / 2 := by
  unfold rectifier
  split_ifs with h
  · constructor <;> linarith
  · have hxT : T < x := not_le.mp h
    have h1 : (T + 1) * x ≤ (T + 1) * 1 := mul_le_mul_of_nonneg_left hx1 (by linarith)
    have h2 : (T + 1) * T ≤ (T + 1) * x := mul_le_mul_of_nonneg_left (le_of_lt hxT) (by linarith)
    have h3 : 0 ≤ T * T := mul_nonneg hT0 hT0
    constructor <;> nlinarith

theorem comparator_mem (b x T p : α) :
    -1 ≤ comparator b x T p ∧ comparator b x T p ≤ 1 := by
  simp only [comparator]
  split_ifs <;> constructor <;> norm_num

/-- The crossfade weight `g = compGain` lies in `[0, 1]` and `rectGain = 1 - g`. -/
theorem gains_mem (a b : α) (hab : a < b) (s : Oscillator α) (v : α) :
    (setWaveformParameters a b s v).rectGain = 1 - (setWaveformParameters a b s v).compGain ∧
    0 ≤ (setWaveformParameters a b s v).compGain ∧
    (setWaveformParameters a b s v).compGain ≤ 1 := by
  rw [rectGain_closed a b hab, compGain_closed a b hab]
  exact ⟨rfl, le_min (le_max_right _ _) zero_le_one, min_le_right _ _⟩

theorem rectThreshold_mem (a b : α) (ha : 0 < a) (s : Oscillator α) (v : α) (hv : 0 ≤ v) :
    0 ≤ (setWaveformParameters a b s v).rectThreshold ∧
    (setWaveformParameters a b s v).rectThreshold ≤ 1 := by
  rw [rectThreshold_closed a b ha]
  exact ⟨le_min (div_nonneg hv (le_of_lt ha)) zero_le_one, min_le_right _ _⟩

/-- For a non-negative control position the returned sample is at most half the
amplitude in magnitude. -/
theorem nextSample_abs_le (a b : α) (ha : 0 < a) (hab : a < b) (s : Oscillator α) (p : α)
    (hp : 0 ≤ p) (hi0 : 0 ≤ s.inc) (hi1 : s.inc < 1) (hp0 : 0 ≤ s.phase) (hp1 : s.phase < 1) :
    |(nextSample a b s p).1| ≤ |s.amplitude| / 2 := by
  have hph := nextSample_phase_mem a b s p hi0 hi1 hp0 hp1
  have hT := rectThreshold_mem a b ha s p hp
  have hr := rectifier_mem (2 * (nextSample a b s p).2.phase - 1)
    (setWaveformParameters a b s p).rectThreshold hT.1
    (by linarith [hph.1]) (by linarith [hph.2])
  have hc := comparator_mem b (2 * (nextSample a b s p).2.phase - 1)
    (setWaveformParameters a b s p).compThreshold p
  obtain ⟨hg, hg0, hg1⟩ := gains_mem a b hab s p
  rw [nextSample_fst, hg]
  set r := rectifier (2 * (nextSample a b s p).2.phase - 1)
    (setWaveformParameters a b s p).rectThreshold with hrdef
  set c := comparator b (2 * (nextSample a b s p).2.phase - 1)
    (setWaveformParameters a b s p).compThreshold p with hcdef
  set g := (setWaveformParameters a b s p).compGain with hgdef
  set T := (setWaveformParameters a b s p).rectThreshold with hTdef
  have hu : |r * (1 - g) + c * g| ≤ 1 := by
    rw [abs_le]
    have h1g : 0 ≤ 1 - g := by linarith
    have hr1 : r ≤ 1 := by linarith [hr.2, hT.2]
    have hr0 : -1 ≤ r := by linarith [hr.1, hT.2]
    constructor
    · nlinarith [mul_le_mul_of_nonneg_right hr0 h1g, mul_le_mul_of_nonneg_right hc.1 hg0]
    · nlinarith [mul_le_mul_of_nonneg_right hr1 h1g, mul_le_mul_of_nonneg_right hc.2 hg0]
  rw [abs_div, abs_mul, abs_two]
  have := mul_le_mul_of_nonneg_left hu (abs_nonneg s.amplitude)
  rw [mul_one] at this
  exact div_le_div_of_nonneg_right this (by norm_num)

/-! ## The phase accumulator as addition modulo one -/

/-- After the calls for `ps`, the phase is the fractional part of the start phase
plus one increment per call. -/
theorem nextSamples_phase_fract [FloorRing α] (a b : α) (ps : List α) (s : Oscillator α)
    (hi0 : 0 ≤ s.inc) (hi1 : s.inc < 1) (hp0 : 0 ≤ s.phase) (hp1 : s.phase < 1) :
    (nextSamples a b s ps).2.phase = Int.fract (s.phase + (ps.length : α) * s.inc) := by
  induction ps generalizing s with
  | nil =>
    simp only [nextSamples, List.length_nil, Nat.cast_zero, zero_mul, add_zero]
    exact (Int.fract_eq_self.mpr ⟨hp0, hp1⟩).symm
  | cons p ps ih =>
    have hm := nextSample_phase_mem a b s p hi0 hi1 hp0 hp1
    have hinc := nextSample_inc a b s p
    simp only [nextSamples]
    rw [ih (nextSample a b s p).2 (by rw [hinc]; exact hi0) (by rw [hinc]; exact hi1) hm.1 hm.2,
      hinc, nextSample_phase, List.length_cons, Nat.cast_succ]
    split_ifs with h
    · have e : s.phase + s.inc - 1 + (ps.length : α) * s.inc
          = s.phase + ((ps.length : α) + 1) * s.inc - 1 := by ring
      rw [e, Int.fract_sub_one]
    · have e : s.phase + s.inc + (ps.length : α) * s.inc
          = s.phase + ((ps.length : α) + 1) * s.inc := by ring
      rw [e]

/-! ## Splitting the buffer at the MIDI events -/

theorem renderCalls_append (xs ys : List Call) :
    renderCalls (xs ++ ys) = renderCalls xs ++ renderCalls ys := by
  induction xs with
  | nil => rfl
  | cons c cs ih => cases c <;> simp [renderCalls, ih]

theorem handleCalls_append (xs ys : List Call) :
    handleCalls (xs ++ ys) = handleCalls xs ++ handleCalls ys := by
  induction xs with
  | nil => rfl
  | cons c cs ih => cases c <;> simp [handleCalls, ih]

theorem renderedSamples_append (xs ys : List Call) :
    renderedSamples (xs ++ ys) = renderedSamples xs + renderedSamples ys := by
  simp [renderedSamples, renderCalls_append]

/-- Appending one more render call to a tiling. -/
theorem tiling_append_single (start : Int) (rs : List (Int × Int)) (r : Int × Int) :
    Tiling start (rs ++ [r]) ↔
      Tiling start rs ∧ 0 < r.1 ∧ r.2 = start + (rs.map Prod.fst).sum := by
  induction rs generalizing start with
  | nil => simp [Tiling]
  | cons x xs ih =>
    have e : (x :: xs) ++ [r] = x :: (xs ++ [r]) := rfl
    rw [e]
    simp only [Tiling, List.map_cons, List.sum_cons]
    rw [ih]
    constructor
    · rintro ⟨h1, h2, h3, h4, h5⟩
      exact ⟨⟨h1, h2, h3⟩, h4, by rw [h5]; ring⟩
    · rintro ⟨⟨h1, h2, h3⟩, h4, h5⟩
      exact ⟨h1, h2, h3, h4, by rw [h5]; ring⟩

theorem tiling_pos (start : Int) (rs : List (Int × Int)) (h : Tiling start rs) :
    ∀ r ∈ rs, 0 < r.1 := by
  induction rs generalizing start with
  | nil => simp
  | cons x xs ih =>
    intro r hr
    rcases List.mem_cons.mp hr with rfl | hr
    · exact h.1
    · exact ih _ h.2.2 r hr

theorem tiling_head (start : Int) (rs : List (Int × Int)) (h : Tiling start rs) :
    ∀ r, rs.head? = some r → r.2 = start := by
  cases rs with
  | nil => simp
  | cons x xs =>
    intro r hr
    simp only [List.head?_cons, Option.some.injEq] at hr
    subst hr
    exact h.2.1

theorem tiling_chain (start : Int) (rs : List (Int × Int)) (h : Tiling start rs) :
    List.Chain' (fun r₁ r₂ : Int × Int => r₂.2 = r₁.2 + r₁.1) rs := by
  induction rs generalizing start with
  | nil => exact List.chain'_nil
  | cons x xs ih =>
    cases xs with
    | nil => exact List.chain'_singleton x
    | cons y ys =>
      refine List.chain'_cons.mpr ⟨?_, ih _ h.2.2⟩
      rw [h.2.2.2.1, h.2.1]

/-- One loop iteration: what it does to the offset and to the calls. -/
theorem splitStep_spec (st : Int × List Call) (m : MidiMessageMetadata) :
    ∃ pre : List Call,
      (splitStep st m).1 = max st.1 m.samplePosition ∧
      (splitStep st m).2 = pre ++
        (if m.numBytes ≤ 3 then
          [Call.handleMIDI (midiBytes m).1 (midiBytes m).2.1 (midiBytes m).2.2] else []) ∧
      pre = st.2 ++
        (if m.samplePosition - st.1 > 0 then [Call.render (m.samplePosition - st.1) st.1]
         else []) := by
  refine ⟨_, ?_, ?_, rfl⟩
  · by_cases h1 : m.samplePosition - st.1 > 0 <;> by_cases h2 : m.numBytes ≤ 3
    · simp only [splitStep, if_pos h1, if_pos h2]; rw [max_eq_right (by omega)]; omega
    · simp only [splitStep, if_pos h1, if_neg h2]; rw [max_eq_right (by omega)]; omega
    · simp only [splitStep, if_neg h1, if_pos h2]; rw [max_eq_left (by omega)]
    · simp only [splitStep, if_neg h1, if_neg h2]; rw [max_eq_left (by omega)]
  · by_cases h1 : m.samplePosition - st.1 > 0 <;> by_cases h2 : m.numBytes ≤ 3 <;>
      simp [splitStep, h1, h2, midiBytes]

/-- The loop invariant: the render calls made so far tile `[0, bufferOffset)`,
and the `handleMIDI` calls made so far are those of the short events, in order. -/
theorem splitLoop_invariant (es : List MidiMessageMetadata) :
    Tiling 0 (renderCalls (es.foldl splitStep (0, [])).2) ∧
    renderedSamples (es.foldl splitStep (0, [])).2 = (es.foldl splitStep (0, [])).1 ∧
    0 ≤ (es.foldl splitStep (0, [])).1 ∧
    (∀ N : Int, 0 ≤ N → (∀ e ∈ es, e.samplePosition ≤ N) →
      (es.foldl splitStep (0, [])).1 ≤ N) ∧
    handleCalls (es.foldl splitStep (0, [])).2 =
      (es.filter (fun e => decide (e.numBytes ≤ 3))).map midiBytes := by
  induction es using List.reverseRecOn with
  | nil => simp [Tiling, renderCalls, renderedSamples, handleCalls]
  | append_singleton es m ih =>
    obtain ⟨hT, hS, h0, hN, hH⟩ := ih
    obtain ⟨pre, hoff, hcalls, hpre⟩ := splitStep_spec (es.foldl splitStep (0, [])) m
    rw [List.foldl_append, List.foldl_cons, List.foldl_nil]
    have hrpre : renderCalls (splitStep (es.foldl splitStep (0, [])) m).2 = renderCalls pre := by
      rw [hcalls, renderCalls_append]
      split_ifs <;> simp [renderCalls]
    have hTS : Tiling 0 (renderCalls pre) ∧
        ((renderCalls pre).map Prod.fst).sum = max (es.foldl splitStep (0, [])).1 m.samplePosition := by
      rw [hpre, renderCalls_append]
      unfold renderedSamples at hS
      by_cases h1 : m.samplePosition - (es.foldl splitStep (0, [])).1 > 0
      · rw [if_pos h1]
        simp only [renderCalls]
        rw [tiling_append_single]
        refine ⟨⟨hT, h1, by simp [hS]⟩, ?_⟩
        rw [List.map_append, List.sum_append, hS, max_eq_right (by omega)]
        simp
      · rw [if_neg h1]
        simp only [renderCalls, List.append_nil]
        exact ⟨hT, by rw [hS, max_eq_left (by omega)]⟩
    refine ⟨by rw [hrpre]; exact hTS.1, ?_, ?_, ?_, ?_⟩
    · unfold renderedSamples
      rw [hrpre, hoff, hTS.2]
    · rw [hoff]
      exact le_max_of_le_left h0
    · intro N hN0 hall
      rw [hoff]
      refine max_le (hN N hN0 (fun e he => hall e (List.mem_append_left _ he))) ?_
      exact hall m (List.mem_append_right _ (List.mem_singleton_self m))
    · rw [hcalls, handleCalls_append, hpre, handleCalls_append, hH, List.filter_append,
        List.map_append]
      by_cases h2 : m.numBytes ≤ 3 <;>
        by_cases h1 : m.samplePosition - (es.foldl splitStep (0, [])).1 > 0 <;>
        simp [h1, h2, handleCalls]

/-- The loop only appends to the calls already made. -/
theorem splitLoop_extends (es : List MidiMessageMetadata) (st : Int × List Call) :
    ∃ suffix, (es.foldl splitStep st).2 = st.2 ++ suffix := by
  induction es generalizing st with
  | nil => exact ⟨[], by simp⟩
  | cons m es ih =>
    obtain ⟨suffix, hs⟩ := ih (splitStep st m)
    obtain ⟨pre, _, hcalls, hpre⟩ := splitStep_spec st m
    rw [hpre, List.append_assoc] at hcalls
    obtain ⟨added, hadded⟩ : ∃ added, (splitStep st m).2 = st.2 ++ added := ⟨_, hcalls⟩
    exact ⟨added ++ suffix, by rw [List.foldl_cons, hs, hadded, List.append_assoc]⟩

/-! ## The parameter mapper -/

/-- C1: with `splitPointA = 0.4` and `splitPointB = 0.8`, for every control
position `v`, `setWaveformParameters v` leaves
`(rectThreshold, rectGain, compThreshold, compGain)` equal to `(v/0.4, 1, 0, 0)`
when `v < 0.4`, to `(1, 1 - t, 0, t)` with `t = (v - 0.4)/(0.8 - 0.4)` when
`0.4 ≤ v ≤ 0.8`, and to `(1, 0, (0.8 - v - 0.5 - 0.6*(v - 0.8))/(1.2 - 0.8), 1)`
when `v > 0.8`; at `v = 0` the result is `(0, 1, 0, 0)`. -/
theorem setWaveformParameters_regions (s : Oscillator α) (v : α) :
    let r := setWaveformParameters 0.4 0.8 s v
    (v < 0.4 → (r.rectThreshold, r.rectGain, r.compThreshold, r.compGain)
        = (v / 0.4, 1, 0, 0)) ∧
    (0.4 ≤ v → v ≤ 0.8 → (r.rectThreshold, r.rectGain, r.compThreshold, r.compGain)
        = (1, 1 - (v - 0.4) / (0.8 - 0.4), 0, (v - 0.4) / (0.8 - 0.4))) ∧
    (0.8 < v → (r.rectThreshold, r.rectGain, r.compThreshold, r.compGain)
        = (1, 0, (0.8 - v - 0.5 - 0.6 * (v - 0.8)) / (1.2 - 0.8), 1)) ∧
    (let z := setWaveformParameters 0.4 0.8 s 0
     (z.rectThreshold, z.rectGain, z.compThreshold, z.compGain) = (0, 1, 0, 0)) := by
  have h48 : (0.4 : α) < 0.8 := by norm_num
  refine ⟨fun h => ?_, fun h1 h2 => ?_, fun h => ?_, ?_⟩
  · simp [setWaveformParameters, h]
  · simp [setWaveformParameters, not_lt.mpr h1, h2]
  · have h1 : ¬ v < 0.4 := not_lt.mpr (le_of_lt (lt_trans h48 h))
    simp [setWaveformParameters, h1, not_le.mpr h]
  · have h0 : (0 : α) < 0.4 := by norm_num
    simp [setWaveformParameters, h0]

/-- Instance of `setWaveformParameters_regions` over `ℚ` at `v = 1` (Region C),
from the constructed state. -/
theorem setWaveformParameters_regions_witness :
    (0.8 : ℚ) < 1 ∧
    ((setWaveformParameters 0.4 0.8 (Oscillator.init (1 / 100 : ℚ) 1) 1).rectThreshold,
     (setWaveformParameters 0.4 0.8 (Oscillator.init (1 / 100 : ℚ) 1) 1).rectGain,
     (setWaveformParameters 0.4 0.8 (Oscillator.init (1 / 100 : ℚ) 1) 1).compThreshold,
     (setWaveformParameters 0.4 0.8 (Oscillator.init (1 / 100 : ℚ) 1) 1).compGain)
      = (1, 0, (0.8 - 1 - 0.5 - 0.6 * (1 - 0.8)) / (1.2 - 0.8), 1) :=
  ⟨by norm_num,
   (setWaveformParameters_regions (Oscillator.init (1 / 100 : ℚ) 1) 1).2.2.1 (by norm_num)⟩

/-! ## Reset -/

/-- C4: for every prior state, after `reset` the fields are `rectThreshold = 0.5`,
`rectGain = 1`, `compThreshold = 0`, `compGain = 0`, while `phase`, `inc` and
`amplitude` are exactly what they were before the call; `reset` is idempotent. -/
theorem reset_spec (s : Oscillator α) :
    (reset s).rectThreshold = 0.5 ∧ (reset s).rectGain = 1 ∧
    (reset s).compThreshold = 0 ∧ (reset s).compGain = 0 ∧
    (reset s).phase = s.phase ∧ (reset s).inc = s.inc ∧
    (reset s).amplitude = s.amplitude ∧ reset (reset s) = reset s :=
  ⟨rfl, rfl, rfl, rfl, rfl, rfl, rfl, rfl⟩

/-! ## The two shaping stages -/

/-- C5: with `T' = (T + 0.2) * 0.4`, `comparator x T p = 1` when `x ≤ T'`; when
`x > T'` it is `-1` if `p < splitPointB` and `0` if `p ≥ splitPointB`.  So the
result lies in `{-1, 1}` for `p < splitPointB` and in `{0, 1}` for
`p ≥ splitPointB`, and for the same `x` and `T` a position below `splitPointB`
and a position at or above it give differing values exactly when `x > T'`. -/
theorem comparator_spec (splitPointB x T : α) :
    (∀ p, x ≤ (T + 0.2) * 0.4 → comparator splitPointB x T p = 1) ∧
    (∀ p, (T + 0.2) * 0.4 < x → p < splitPointB → comparator splitPointB x T p = -1) ∧
    (∀ p, (T + 0.2) * 0.4 < x → splitPointB ≤ p → comparator splitPointB x T p = 0) ∧
    (∀ p, p < splitPointB →
      comparator splitPointB x T p = -1 ∨ comparator splitPointB x T p = 1) ∧
    (∀ p, splitPointB ≤ p →
      comparator splitPointB x T p = 0 ∨ comparator splitPointB x T p = 1) ∧
    (∀ p q, p < splitPointB → splitPointB ≤ q →
      (comparator splitPointB x T p ≠ comparator splitPointB x T q ↔
        (T + 0.2) * 0.4 < x)) := by
  refine ⟨fun p h => ?_, fun p h hp => ?_, fun p h hp => ?_, fun p hp => ?_,
    fun p hp => ?_, fun p q hp hq => ?_⟩
  · simp [comparator, not_lt.mpr h]
  · simp [comparator, h, hp]
  · simp [comparator, h, not_lt.mpr hp]
  · by_cases h : (T + 0.2) * 0.4 < x <;> simp [comparator, h, hp]
  · by_cases h : (T + 0.2) * 0.4 < x <;> simp [comparator, h, not_lt.mpr hp]
  · by_cases h : (T + 0.2) * 0.4 < x <;> simp [comparator, h, hp, not_lt.mpr hq]

/-- Instance of `comparator_spec` over `ℚ`: sawtooth value `1/2`, threshold `0`,
positions `1/2` (below `splitPointB = 0.8`) and `1` (above it). -/
theorem comparator_spec_witness :
    ((0 + 0.2) * 0.4 < (1 / 2 : ℚ)) ∧
    comparator (0.8 : ℚ) (1 / 2) 0 (1 / 2) = -1 ∧
    comparator (0.8 : ℚ) (1 / 2) 0 1 = 0 :=
  ⟨by norm_num,
   (comparator_spec (0.8 : ℚ) (1 / 2) 0).2.1 (1 / 2) (by norm_num) (by norm_num),
   (comparator_spec (0.8 : ℚ) (1 / 2) 0).2.2.1 1 (by norm_num) (by norm_num)⟩

/-- C6: for every input `x ≤ 1`, `rectifier x 1 = x`: the fold branch is not
taken and the DC term `(1 - 1)/2` is `0`. -/
theorem rectifier_one (x : α) (hx : x ≤ 1) : rectifier x 1 = x := by
  simp [rectifier, hx]

/-- Instance of `rectifier_one` over `ℚ` at `x = -1/3`. -/
theorem rectifier_one_witness : (-1 / 3 : ℚ) ≤ 1 ∧ rectifier (-1 / 3 : ℚ) 1 = -1 / 3 :=
  ⟨by norm_num, rectifier_one (-1 / 3 : ℚ) (by norm_num)⟩

/-! ## The phase accumulator -/

/-- C2: for every increment `inc` in `(0, 1)`, every control position and every
state whose phase is in `[0, 1)`, after one call of `nextSample` the phase is
again in `[0, 1)`; it equals `phase + inc` when that is `< 1` and
`phase + inc - 1` otherwise, so it only decreases on a wrap; and the sawtooth
value `2 * phase - 1` of the new phase lies in `[-1, 1]`.  Hence the invariant
holds after any number of calls starting from the constructed state. -/
theorem nextSample_phase_invariant (a b inc : α) (h0 : 0 < inc) (h1 : inc < 1) :
    (∀ (s : Oscillator α) (position : α), s.inc = inc → 0 ≤ s.phase → s.phase < 1 →
      (0 ≤ (nextSample a b s position).2.phase ∧
       (nextSample a b s position).2.phase < 1) ∧
      (s.phase + inc < 1 → (nextSample a b s position).2.phase = s.phase + inc) ∧
      (1 ≤ s.phase + inc → (nextSample a b s position).2.phase = s.phase + inc - 1) ∧
      ((nextSample a b s position).2.phase < s.phase → 1 ≤ s.phase + inc) ∧
      (-1 ≤ 2 * (nextSample a b s position).2.phase - 1 ∧
       2 * (nextSample a b s position).2.phase - 1 ≤ 1)) ∧
    (∀ (amplitude : α) (positions : List α),
      (0 ≤ (nextSamples a b (Oscillator.init inc amplitude) positions).2.phase ∧
       (nextSamples a b (Oscillator.init inc amplitude) positions).2.phase < 1) ∧
      (-1 ≤ 2 * (nextSamples a b (Oscillator.init inc amplitude) positions).2.phase - 1 ∧
       2 * (nextSamples a b (Oscillator.init inc amplitude) positions).2.phase - 1 ≤ 1)) := by
  constructor
  · intro s position hinc hp0 hp1
    subst hinc
    have hm := nextSample_phase_mem a b s position (le_of_lt h0) h1 hp0 hp1
    refine ⟨hm, fun h => ?_, fun h => ?_, fun h => ?_, by linarith [hm.1], by linarith [hm.2]⟩
    · rw [nextSample_phase, if_neg (not_le.mpr h)]
    · rw [nextSample_phase, if_pos h]
    · by_contra hc
      rw [nextSample_phase, if_neg hc] at h
      linarith
  · intro amplitude positions
    have hm := nextSamples_phase_mem a b positions (Oscillator.init inc amplitude)
      (le_of_lt h0) h1 (le_refl (0 : α)) (zero_lt_one)
    exact ⟨hm, by linarith [hm.1], by linarith [hm.2]⟩

/-- Instance of `nextSample_phase_invariant` over `ℚ`: increment `3/10`, a state
with phase `9/10` (so the call wraps to `1/5`), and three calls from the
constructed state. -/
theorem nextSample_phase_invariant_witness :
    ((0 : ℚ) < 3 / 10 ∧ (3 / 10 : ℚ) < 1) ∧
    (nextSample (0.4 : ℚ) 0.8 ⟨9 / 10, 3 / 10, 1, 0.5, 1, 0, 0⟩ 0).2.phase
      = 9 / 10 + 3 / 10 - 1 ∧
    (0 ≤ (nextSamples (0.4 : ℚ) 0.8 (Oscillator.init (3 / 10) 1) [0, 1 / 2, 1]).2.phase ∧
     (nextSamples (0.4 : ℚ) 0.8 (Oscillator.init (3 / 10) 1) [0, 1 / 2, 1]).2.phase < 1) :=
  ⟨⟨by norm_num, by norm_num⟩,
   ((nextSample_phase_invariant (0.4 : ℚ) 0.8 (3 / 10) (by norm_num) (by norm_num)).1
      ⟨9 / 10, 3 / 10, 1, 0.5, 1, 0, 0⟩ 0 rfl (by norm_num) (by norm_num)).2.2.1
      (by norm_num),
   ((nextSample_phase_invariant (0.4 : ℚ) 0.8 (3 / 10) (by norm_num) (by norm_num)).2
      1 [0, 1 / 2, 1]).1⟩

/-- C3: at control position `0`, with `splitPointA > 0`, for every state with phase
in `[0, 1)` and `inc` in `[0, 1)`, `nextSample 0` returns
`amplitude * (1/2 - |s|) / 2`, where `s = 2 * phase' - 1` is the sawtooth of the
advanced phase: the rectified ramp, with no comparator contribution.  Starting
from the constructed state with `inc = 1/100` and `amplitude = 1`, call number
`k` of 100 successive calls returns `1/4 - |k/50 - 1| / 2` for `k = 1..99`, call
number 100 returns `-1/4`, and the phase after it is `0`. -/
theorem nextSample_position_zero (a b : α) (ha : 0 < a) :
    (∀ s : Oscillator α, 0 ≤ s.phase → s.phase < 1 → 0 ≤ s.inc → s.inc < 1 →
      (nextSample a b s 0).1 =
        s.amplitude * (1 / 2 - |2 * (nextSample a b s 0).2.phase - 1|) / 2) ∧
    (∀ k : ℕ, 1 ≤ k → k ≤ 99 →
      (nextSamples a b (Oscillator.init (1 / 100) 1) (List.replicate 100 0)).1[k - 1]? =
        some (1 / 4 - |(k : α) / 50 - 1| / 2)) ∧
    (nextSamples a b (Oscillator.init (1 / 100) 1) (List.replicate 100 0)).1[99]? =
      some (-1 / 4 : α) ∧
    (nextSamples a b (Oscillator.init (1 / 100) 1) (List.replicate 100 0)).1.length = 100 ∧
    (nextSamples a b (Oscillator.init (1 / 100) 1) (List.replicate 100 0)).2.phase = 0 := by
  -- the state left by the first `n ≤ 99` calls
  have hstate : ∀ n : ℕ, n ≤ 99 →
      (nextSamples a b (Oscillator.init (1 / 100 : α) 1) (List.replicate n 0)).2.phase
          = (n : α) / 100 ∧
      (nextSamples a b (Oscillator.init (1 / 100 : α) 1) (List.replicate n 0)).2.inc
          = 1 / 100 ∧
      (nextSamples a b (Oscillator.init (1 / 100 : α) 1) (List.replicate n 0)).2.amplitude
          = 1 := by
    intro n hn
    refine ⟨?_, ?_, ?_⟩
    · have := nextSamples_zero_phase a b n 0 (Oscillator.init (1 / 100 : α) 1) rfl
        (by simp [Oscillator.init]) (by omega)
      simpa using this
    · rw [nextSamples_inc]; rfl
    · rw [nextSamples_amplitude]; rfl
  have h99 := hstate 99 (le_refl 99)
  have hlast : (nextSample a b
      (nextSamples a b (Oscillator.init (1 / 100 : α) 1) (List.replicate 99 0)).2 0).2.phase
        = 0 := by
    rw [nextSample_phase, h99.1, h99.2.1]
    norm_num
  refine ⟨fun s _ _ _ _ => nextSample_zero a b ha s, fun k hk1 hk99 => ?_, ?_, ?_, ?_⟩
  · rw [nextSamples_getElem_opt]
    have hk : k - 1 < 100 := by omega
    have hs := hstate (k - 1) (by omega)
    have hcast : ((k - 1 : ℕ) : α) = (k : α) - 1 := by
      rw [Nat.cast_sub hk1, Nat.cast_one]
    have hklt : (k : α) < 100 := by
      have : k < 100 := by omega
      exact_mod_cast this
    have hph : (nextSample a b
        (nextSamples a b (Oscillator.init (1 / 100 : α) 1) (List.replicate (k - 1) 0)).2
          0).2.phase = (k : α) / 100 := by
      rw [nextSample_phase, hs.1, hs.2.1, hcast]
      have hsum : ((k : α) - 1) / 100 + 1 / 100 = (k : α) / 100 := by ring
      rw [hsum, if_neg]
      rw [ge_iff_le, not_le, div_lt_one (by norm_num)]
      exact hklt
    simp only [List.getElem?_replicate, if_pos hk, Option.map_some', List.take_replicate,
      min_eq_left (le_of_lt hk), Option.some.injEq]
    rw [nextSample_zero a b ha, hph, hs.2.2]
    have : 2 * ((k : α) / 100) - 1 = (k : α) / 50 - 1 := by ring
    rw [this]
    ring
  · rw [nextSamples_getElem_opt]
    simp only [List.getElem?_replicate, Option.map_some', List.take_replicate,
      Option.some.injEq]
    norm_num
    rw [nextSample_zero a b ha, hlast, h99.2.2]
    norm_num
  · rw [nextSamples_length, List.length_replicate]
  · have hsplit : List.replicate 100 (0 : α) = List.replicate 99 0 ++ [0] := by
      rw [← List.replicate_succ']
    rw [hsplit, nextSamples_append_state, nextSamples_singleton_state]
    exact hlast

/-- Instance of `nextSample_position_zero` over `ℚ` with `splitPointA = 0.4`:
a single call from phase `1/4` with increment `1/4`, and call number 30 of the
run of 100. -/
theorem nextSample_position_zero_witness :
    (0 : ℚ) < 0.4 ∧
    (nextSample (0.4 : ℚ) 0.8 ⟨1 / 4, 1 / 4, 3, 0.5, 1, 0, 0⟩ 0).1 =
      3 * (1 / 2 - |2 * (nextSample (0.4 : ℚ) 0.8 ⟨1 / 4, 1 / 4, 3, 0.5, 1, 0, 0⟩ 0).2.phase
        - 1|) / 2 ∧
    (nextSamples (0.4 : ℚ) 0.8 (Oscillator.init (1 / 100) 1) (List.replicate 100 0)).1[30 - 1]?
      = some (1 / 4 - |((30 : ℕ) : ℚ) / 50 - 1| / 2) :=
  ⟨by norm_num,
   (nextSample_position_zero (0.4 : ℚ) 0.8 (by norm_num)).1 ⟨1 / 4, 1 / 4, 3, 0.5, 1, 0, 0⟩
     (by norm_num) (by norm_num) (by norm_num) (by norm_num),
   (nextSample_position_zero (0.4 : ℚ) 0.8 (by norm_num)).2.1 30 (by norm_num) (by norm_num)⟩

/-! ## Behaviour at the region boundaries (over `ℝ`) -/

section Continuity

open Filter Topology

theorem continuous_rectThreshold (a b : ℝ) (ha : 0 < a) (s : Oscillator ℝ) :
    Continuous (fun v => (setWaveformParameters a b s v).rectThreshold) := by
  have h : (fun v => (setWaveformParameters a b s v).rectThreshold) = fun v => min (v / a) 1 :=
    funext (rectThreshold_closed a b ha s)
  rw [h]
  exact (continuous_id.div_const a).min continuous_const

theorem continuous_compGain (a b : ℝ) (hab : a < b) (s : Oscillator ℝ) :
    Continuous (fun v => (setWaveformParameters a b s v).compGain) := by
  have h : (fun v => (setWaveformParameters a b s v).compGain)
      = fun v => min (max ((v - a) / (b - a)) 0) 1 :=
    funext (compGain_closed a b hab s)
  rw [h]
  exact ((((continuous_id.sub continuous_const).div_const (b - a)).max
    continuous_const).min continuous_const)

theorem continuous_rectGain (a b : ℝ) (hab : a < b) (s : Oscillator ℝ) :
    Continuous (fun v => (setWaveformParameters a b s v).rectGain) := by
  have h : (fun v => (setWaveformParameters a b s v).rectGain)
      = fun v => 1 - min (max ((v - a) / (b - a)) 0) 1 :=
    funext (rectGain_closed a b hab s)
  rw [h]
  exact continuous_const.sub ((((continuous_id.sub continuous_const).div_const (b - a)).max
    continuous_const).min continuous_const)

theorem continuousAt_compThreshold_of_lt (a b : ℝ) (s : Oscillator ℝ) (v₀ : ℝ) (h : v₀ < b) :
    ContinuousAt (fun v => (setWaveformParameters a b s v).compThreshold) v₀ := by
  have he : (fun _ : ℝ => (0 : ℝ)) =ᶠ[𝓝 v₀]
      fun v => (setWaveformParameters a b s v).compThreshold :=
    Filter.eventually_of_mem (Iio_mem_nhds h)
      (fun v hv => (compThreshold_of_le a b s v (le_of_lt hv)).symm)
  exact continuousAt_const.congr he

/-- C7: with `0 < splitPointA < splitPointB`, the mapping
`v ↦ (rectThreshold, rectGain, compThreshold, compGain)` computed by
`setWaveformParameters` is continuous at `v = splitPointA`: the Region-A values
`(v / splitPointA, 1, 0, 0)` tend to `(1, 1, 0, 0)` as `v` approaches
`splitPointA` from below, which is the Region-B value at `v = splitPointA`; and
`rectGain` is `1` on both sides. -/
theorem waveformParameters_continuousAt_splitPointA (a b : ℝ) (ha : 0 < a) (hab : a < b)
    (s : Oscillator ℝ) :
    ContinuousAt (waveformParameters a b s) a ∧
    Tendsto (fun v : ℝ => (v / a, (1 : ℝ), (0 : ℝ), (0 : ℝ))) (𝓝[<] a) (𝓝 (1, 1, 0, 0)) ∧
    (∀ v, v < a → waveformParameters a b s v = (v / a, 1, 0, 0)) ∧
    waveformParameters a b s a = (1, 1, 0, 0) ∧
    Tendsto (waveformParameters a b s) (𝓝[<] a) (𝓝 (1, 1, 0, 0)) ∧
    (∀ v, v ≤ a → (setWaveformParameters a b s v).rectGain = 1) := by
  have hcont : ContinuousAt (waveformParameters a b s) a := by
    unfold waveformParameters
    exact (continuous_rectThreshold a b ha s).continuousAt.prod
      ((continuous_rectGain a b hab s).continuousAt.prod
        ((continuousAt_compThreshold_of_lt a b s a hab).prod
          (continuous_compGain a b hab s).continuousAt))
  have hval : waveformParameters a b s a = (1, 1, 0, 0) := by
    simp [waveformParameters, setWaveformParameters, le_of_lt hab]
  have hleft : Tendsto (waveformParameters a b s) (𝓝[<] a) (𝓝 (1, 1, 0, 0)) := by
    have := hcont.tendsto.mono_left (nhdsWithin_le_nhds (s := Set.Iio a))
    rwa [hval] at this
  have hA : ∀ v, v < a → waveformParameters a b s v = (v / a, 1, 0, 0) := by
    intro v hv
    simp [waveformParameters, setWaveformParameters, hv]
  refine ⟨hcont, ?_, hA, hval, hleft, ?_⟩
  · refine hleft.congr' ?_
    exact eventually_nhdsWithin_of_forall (fun v hv => hA v hv)
  · intro v hv
    rcases lt_or_eq_of_le hv with h | h
    · simp [setWaveformParameters, h]
    · subst h
      simp [setWaveformParameters, le_of_lt hab]

/-- Instance of `waveformParameters_continuousAt_splitPointA` at the nominal
split points `0.4` and `0.8`: the value at the boundary. -/
theorem waveformParameters_continuousAt_splitPointA_witness :
    (0 : ℝ) < 0.4 ∧ (0.4 : ℝ) < 0.8 ∧
    waveformParameters (0.4 : ℝ) 0.8 (Oscillator.init (1 / 100) 1) 0.4 = (1, 1, 0, 0) :=
  ⟨by norm_num, by norm_num,
   (waveformParameters_continuousAt_splitPointA 0.4 0.8 (by norm_num) (by norm_num)
     (Oscillator.init (1 / 100) 1)).2.2.2.1⟩

/-- C8: with `splitPointA < splitPointB`, `setWaveformParameters` at
`v = splitPointB` yields `compGain = 1` and `rectGain = 0`, and for every
`v > splitPointB` it yields `compGain = 1` and `rectGain = 0`; both gains are
continuous in `v` at `splitPointB`. -/
theorem gains_continuousAt_splitPointB (a b : ℝ) (hab : a < b) (s : Oscillator ℝ) :
    ((setWaveformParameters a b s b).compGain = 1 ∧
     (setWaveformParameters a b s b).rectGain = 0) ∧
    (∀ v, b < v → (setWaveformParameters a b s v).compGain = 1 ∧
      (setWaveformParameters a b s v).rectGain = 0) ∧
    ContinuousAt (fun v => (setWaveformParameters a b s v).compGain) b ∧
    ContinuousAt (fun v => (setWaveformParameters a b s v).rectGain) b := by
  have hne : b - a ≠ 0 := sub_ne_zero.mpr (ne_of_gt hab)
  refine ⟨?_, fun v hv => ?_, (continuous_compGain a b hab s).continuousAt,
    (continuous_rectGain a b hab s).continuousAt⟩
  · simp [setWaveformParameters, not_lt.mpr (le_of_lt hab), div_self hne]
  · simp [setWaveformParameters, not_lt.mpr (le_of_lt (lt_trans hab hv)), not_le.mpr hv]

/-- Instance of `gains_continuousAt_splitPointB` at the nominal split points
`0.4` and `0.8`: the gains at the boundary. -/
theorem gains_continuousAt_splitPointB_witness :
    (0.4 : ℝ) < 0.8 ∧
    (setWaveformParameters (0.4 : ℝ) 0.8 (Oscillator.init (1 / 100) 1) 0.8).compGain = 1 ∧
    (setWaveformParameters (0.4 : ℝ) 0.8 (Oscillator.init (1 / 100) 1) 0.8).rectGain = 0 :=
  ⟨by norm_num,
   (gains_continuousAt_splitPointB 0.4 0.8 (by norm_num) (Oscillator.init (1 / 100) 1)).1⟩

/-- To the right of `splitPointB = 0.8` the comparator threshold follows the
Region-C formula, whose limit at `0.8` is `-5/4`. -/
theorem compThreshold_tendsto_right (s : Oscillator ℝ) :
    Tendsto (fun v : ℝ => (setWaveformParameters 0.4 0.8 s v).compThreshold)
      (𝓝[>] (0.8 : ℝ)) (𝓝 (-5 / 4)) := by
  have hg : Continuous (fun v : ℝ => ((0.8 : ℝ) - v - 0.5 - (0.6 * (v - 0.8))) / (1.2 - 0.8)) :=
    (((continuous_const.sub continuous_id).sub continuous_const).sub
      (continuous_const.mul (continuous_id.sub continuous_const))).div_const _
  have hlim : Tendsto (fun v : ℝ => ((0.8 : ℝ) - v - 0.5 - (0.6 * (v - 0.8))) / (1.2 - 0.8))
      (𝓝[>] (0.8 : ℝ)) (𝓝 (-5 / 4)) := by
    have h := (hg.tendsto (0.8 : ℝ)).mono_left (nhdsWithin_le_nhds (s := Set.Ioi (0.8 : ℝ)))
    have hv : ((0.8 : ℝ) - 0.8 - 0.5 - (0.6 * (0.8 - 0.8))) / (1.2 - 0.8) = -5 / 4 := by
      norm_num
    rwa [hv] at h
  refine hlim.congr' ?_
  exact eventually_nhdsWithin_of_forall
    (fun v hv => (compThreshold_of_gt 0.4 0.8 (by norm_num) s v hv).symm)

/-- The comparator threshold jumps at `splitPointB = 0.8`. -/
theorem compThreshold_not_continuousAt (s : Oscillator ℝ) :
    ¬ ContinuousAt (fun v : ℝ => (setWaveformParameters 0.4 0.8 s v).compThreshold) 0.8 := by
  intro hc
  have h0 : Tendsto (fun v : ℝ => (setWaveformParameters 0.4 0.8 s v).compThreshold)
      (𝓝[>] (0.8 : ℝ)) (𝓝 0) := by
    have h := hc.tendsto.mono_left (nhdsWithin_le_nhds (s := Set.Ioi (0.8 : ℝ)))
    rwa [compThreshold_of_le 0.4 0.8 s 0.8 (le_refl _)] at h
  have := tendsto_nhds_unique h0 (compThreshold_tendsto_right s)
  norm_num at this

/-- C9, as stated, fails: from the constructed state, `compThreshold` is not
continuous in the control position at `v = splitPointB = 0.8`. -/
theorem compThreshold_continuity_counterexample :
    ¬ ContinuousAt
      (fun v : ℝ => (setWaveformParameters 0.4 0.8 (Oscillator.init (1 / 100) 1) v).compThreshold)
      0.8 :=
  compThreshold_not_continuousAt (Oscillator.init (1 / 100) 1)

/-- C9, amended: with `splitPointA = 0.4` and `splitPointB = 0.8`, `compThreshold`
is `0` on all of Regions A and B (so it is continuous from the left at `0.8`,
with value `0` there), while the Region-C formula's limit as `v` approaches `0.8`
from above is `-5/4`; `compThreshold` therefore jumps by `5/4` at
`v = splitPointB` and is not continuous there. -/
theorem compThreshold_jump_splitPointB (s : Oscillator ℝ) :
    (∀ v : ℝ, v ≤ 0.8 → (setWaveformParameters 0.4 0.8 s v).compThreshold = 0) ∧
    (∀ v : ℝ, 0.8 < v → (setWaveformParameters 0.4 0.8 s v).compThreshold
      = (0.8 - v - 0.5 - 0.6 * (v - 0.8)) / (1.2 - 0.8)) ∧
    Tendsto (fun v : ℝ => (setWaveformParameters 0.4 0.8 s v).compThreshold)
      (𝓝[≤] (0.8 : ℝ)) (𝓝 0) ∧
    Tendsto (fun v : ℝ => (setWaveformParameters 0.4 0.8 s v).compThreshold)
      (𝓝[>] (0.8 : ℝ)) (𝓝 (-5 / 4)) ∧
    ¬ ContinuousAt (fun v : ℝ => (setWaveformParameters 0.4 0.8 s v).compThreshold) 0.8 := by
  refine ⟨fun v hv => compThreshold_of_le 0.4 0.8 s v hv,
    fun v hv => compThreshold_of_gt 0.4 0.8 (by norm_num) s v hv, ?_,
    compThreshold_tendsto_right s, compThreshold_not_continuousAt s⟩
  refine (tendsto_const_nhds (x := (0 : ℝ))).congr' ?_
  exact eventually_nhdsWithin_of_forall
    (fun v hv => (compThreshold_of_le 0.4 0.8 s v hv).symm)

/-- Instance of `compThreshold_jump_splitPointB`: just above the boundary, at
`v = 0.9`, the threshold is already `-33/20`. -/
theorem compThreshold_jump_splitPointB_witness :
    (0.8 : ℝ) < 0.9 ∧
    (setWaveformParameters (0.4 : ℝ) 0.8 (Oscillator.init (1 / 100) 1) 0.9).compThreshold
      = (0.8 - 0.9 - 0.5 - 0.6 * (0.9 - 0.8)) / (1.2 - 0.8) :=
  ⟨by norm_num,
   (compThreshold_jump_splitPointB (Oscillator.init (1 / 100) 1)).2.1 0.9 (by norm_num)⟩

end Continuity

/-! ## The region-local sub-position -/

/-- In Region C, with the nominal split points, the sub-position is `1.95 - 4 v`. -/
theorem currentSplitPosition_regionC (v : α) (hv : 0.8 < v) :
    currentSplitPosition 0.4 0.8 v = 1.95 - 4 * v := by
  have h1 : ¬ v < 0.4 := not_lt.mpr (le_trans (by norm_num) (le_of_lt hv))
  rw [currentSplitPosition, if_neg h1, if_neg (not_le.mpr hv)]
  norm_num
  ring

/-- C10, as stated, fails: at the control position `v = 1`, inside the nominal
range `[0, 1.1]`, the sub-position computed by `setWaveformParameters` (stored in
`compThreshold`) is `-41/20`, which is not in `[0, 1]`. -/
theorem currentSplitPosition_unit_counterexample :
    ((0 : ℚ) ≤ 1 ∧ (1 : ℚ) ≤ 1.1) ∧
    currentSplitPosition (0.4 : ℚ) 0.8 1 = -41 / 20 ∧
    (setWaveformParameters (0.4 : ℚ) 0.8 (Oscillator.init (1 / 100) 1) 1).compThreshold
      = -41 / 20 ∧
    ¬ (0 ≤ currentSplitPosition (0.4 : ℚ) 0.8 1 ∧ currentSplitPosition (0.4 : ℚ) 0.8 1 ≤ 1) := by
  have h : currentSplitPosition (0.4 : ℚ) 0.8 1 = -41 / 20 := by
    rw [currentSplitPosition_regionC 1 (by norm_num)]
    norm_num
  refine ⟨⟨by norm_num, by norm_num⟩, h, ?_, ?_⟩
  · rw [(setWaveformParameters_currentSplitPosition (0.4 : ℚ) 0.8 _ 1).2.2
      (by norm_num) (by norm_num), h]
  · rw [h]
    norm_num

/-- C10, amended: with `splitPointA = 0.4` and `splitPointB = 0.8`, for every
control position `v` in `[0, 0.8]` (Regions A and B) the sub-position `t`
computed by `setWaveformParameters` satisfies `0 ≤ t ≤ 1`; for every `v` in
`(0.8, 1.1]` (Region C) it is `t = 1.95 - 4 v`, so `-2.45 ≤ t < -1.25`, which is
outside `[0, 1]`.  In each region `t` is the field the branch stores it in. -/
theorem currentSplitPosition_range (s : Oscillator α) (v : α) :
    (0 ≤ v → v ≤ 0.8 →
      0 ≤ currentSplitPosition 0.4 0.8 v ∧ currentSplitPosition 0.4 0.8 v ≤ 1) ∧
    (0.8 < v → v ≤ 1.1 →
      -2.45 ≤ currentSplitPosition 0.4 0.8 v ∧ currentSplitPosition 0.4 0.8 v < -1.25) ∧
    (v < 0.4 → (setWaveformParameters 0.4 0.8 s v).rectThreshold
      = currentSplitPosition 0.4 0.8 v) ∧
    (0.4 ≤ v → v ≤ 0.8 → (setWaveformParameters 0.4 0.8 s v).compGain
      = currentSplitPosition 0.4 0.8 v) ∧
    (0.8 < v → (setWaveformParameters 0.4 0.8 s v).compThreshold
      = currentSplitPosition 0.4 0.8 v) := by
  have h04 : (0 : α) < 0.4 := by norm_num
  have h48 : (0.4 : α) < 0.8 := by norm_num
  have hlink := setWaveformParameters_currentSplitPosition (0.4 : α) 0.8 s v
  refine ⟨fun h0 h1 => ?_, fun h0 h1 => ?_, hlink.1, hlink.2.1,
    fun h => hlink.2.2 (le_of_lt (lt_trans h48 h)) h⟩
  · unfold currentSplitPosition
    split_ifs with ha
    · exact ⟨div_nonneg h0 (le_of_lt h04), le_of_lt ((div_lt_one h04).mpr ha)⟩
    · have hd : (0 : α) < 0.8 - 0.4 := sub_pos.mpr h48
      exact ⟨div_nonneg (sub_nonneg.mpr (not_lt.mp ha)) (le_of_lt hd),
        (div_le_one hd).mpr (by linarith)⟩
  · rw [currentSplitPosition_regionC v h0]
    have e1 : (1.1 : α) = 11 / 10 := by norm_num
    have e2 : (0.8 : α) = 4 / 5 := by norm_num
    have e3 : (1.95 : α) = 39 / 20 := by norm_num
    have e4 : (2.45 : α) = 49 / 20 := by norm_num
    have e5 : (1.25 : α) = 5 / 4 := by norm_num
    rw [e1] at h1
    rw [e2] at h0
    rw [e3, e4, e5]
    constructor <;> linarith

/-- Instance of `currentSplitPosition_range` over `ℚ`: `v = 1/2` in Region B, and
`v = 1` in Region C. -/
theorem currentSplitPosition_range_witness :
    ((0 : ℚ) ≤ 1 / 2 ∧ (1 / 2 : ℚ) ≤ 0.8) ∧
    (0 ≤ currentSplitPosition (0.4 : ℚ) 0.8 (1 / 2) ∧
      currentSplitPosition (0.4 : ℚ) 0.8 (1 / 2) ≤ 1) ∧
    ((0.8 : ℚ) < 1 ∧ (1 : ℚ) ≤ 1.1) ∧
    (-2.45 ≤ currentSplitPosition (0.4 : ℚ) 0.8 1 ∧
      currentSplitPosition (0.4 : ℚ) 0.8 1 < -1.25) :=
  ⟨⟨by norm_num, by norm_num⟩,
   (currentSplitPosition_range (Oscillator.init (1 / 100 : ℚ) 1) (1 / 2)).1
     (by norm_num) (by norm_num),
   ⟨by norm_num, by norm_num⟩,
   (currentSplitPosition_range (Oscillator.init (1 / 100 : ℚ) 1) 1).2.1
     (by norm_num) (by norm_num)⟩

/-! ## The derived fields are transient -/

/-- C11: for every control position `p` and any two states that agree on `phase`,
`inc` and `amplitude` but hold arbitrary values of `rectThreshold`, `rectGain`,
`compThreshold` and `compGain`, `nextSample p` returns the same sample and leaves
the same state; in particular calling `reset` immediately before `nextSample p`
changes neither the returned sample nor the resulting state. -/
theorem nextSample_derived_fields_irrelevant (a b p : α) (s₁ s₂ : Oscillator α)
    (hphase : s₁.phase = s₂.phase) (hinc : s₁.inc = s₂.inc)
    (hamp : s₁.amplitude = s₂.amplitude) :
    (nextSample a b s₁ p).1 = (nextSample a b s₂ p).1 ∧
    (nextSample a b s₁ p).2 = (nextSample a b s₂ p).2 ∧
    (nextSample a b (reset s₁) p).1 = (nextSample a b s₁ p).1 ∧
    (nextSample a b (reset s₁) p).2 = (nextSample a b s₁ p).2 := by
  have h12 := nextSample_congr a b s₁ s₂ p
    (setWaveformParameters_congr a b s₁ s₂ p hphase hinc hamp)
  have hr := nextSample_congr a b (reset s₁) s₁ p
    (setWaveformParameters_congr a b (reset s₁) s₁ p rfl rfl rfl)
  exact ⟨by rw [h12], by rw [h12], by rw [hr], by rw [hr]⟩

/-- Instance of `nextSample_derived_fields_irrelevant` over `ℚ`: two states with
phase `1/4`, increment `1/10`, amplitude `1` and different derived fields, at
position `1/2`. -/
theorem nextSample_derived_fields_irrelevant_witness :
    (nextSample (0.4 : ℚ) 0.8 ⟨1 / 4, 1 / 10, 1, 7, -3, 5, 2⟩ (1 / 2)).1 =
      (nextSample (0.4 : ℚ) 0.8 ⟨1 / 4, 1 / 10, 1, 0, 0, -1, 9⟩ (1 / 2)).1 ∧
    (nextSample (0.4 : ℚ) 0.8 ⟨1 / 4, 1 / 10, 1, 7, -3, 5, 2⟩ (1 / 2)).2 =
      (nextSample (0.4 : ℚ) 0.8 ⟨1 / 4, 1 / 10, 1, 0, 0, -1, 9⟩ (1 / 2)).2 :=
  ⟨(nextSample_derived_fields_irrelevant (0.4 : ℚ) 0.8 (1 / 2)
      ⟨1 / 4, 1 / 10, 1, 7, -3, 5, 2⟩ ⟨1 / 4, 1 / 10, 1, 0, 0, -1, 9⟩ rfl rfl rfl).1,
   (nextSample_derived_fields_irrelevant (0.4 : ℚ) 0.8 (1 / 2)
      ⟨1 / 4, 1 / 10, 1, 7, -3, 5, 2⟩ ⟨1 / 4, 1 / 10, 1, 0, 0, -1, 9⟩ rfl rfl rfl).2.1⟩

/-! ## Output range -/

/-- C12, as stated, fails: with `splitPointA = 0.4` and `splitPointB = 0.8` there
are no control position in `[0, 1.1]`, phase in `[0, 1)`, increment in `(0, 1)`
and amplitude for which the sample returned by `nextSample` has magnitude
strictly greater than the magnitude of the amplitude. -/
theorem nextSample_exceeds_unit_counterexample :
    ¬ ∃ (s : Oscillator ℝ) (p : ℝ), (0 ≤ p ∧ p ≤ 1.1) ∧ (0 ≤ s.phase ∧ s.phase < 1) ∧
      (0 < s.inc ∧ s.inc < 1) ∧ |s.amplitude| < |(nextSample 0.4 0.8 s p).1| := by
  rintro ⟨s, p, ⟨hp, _⟩, ⟨hp0, hp1⟩, ⟨hi0, hi1⟩, h⟩
  have hb := nextSample_abs_le (0.4 : ℝ) 0.8 (by norm_num) (by norm_num) s p hp
    (le_of_lt hi0) hi1 hp0 hp1
  have := abs_nonneg s.amplitude
  linarith

/-- C12, amended: with `splitPointA = 0.4` and `splitPointB = 0.8`, for every
control position in the nominal range `[0, 1.1]`, phase in `[0, 1)`, increment in
`(0, 1)` and amplitude, the sample returned by `nextSample` has magnitude at most
the magnitude of the amplitude.  A larger sample needs a control position outside
the nominal range: at position `-2`, from phase `0` with increment `1/4` and
amplitude `1`, the fold reflection returns `-2`. -/
theorem nextSample_within_unit_nominal :
    (∀ (s : Oscillator α) (p : α), 0 ≤ p → p ≤ 1.1 → 0 ≤ s.phase → s.phase < 1 →
      0 < s.inc → s.inc < 1 → |(nextSample 0.4 0.8 s p).1| ≤ |s.amplitude|) ∧
    (nextSample (0.4 : α) 0.8 ⟨0, 1 / 4, 1, 0.5, 1, 0, 0⟩ (-2)).1 = -2 ∧
    |(1 : α)| < |(nextSample (0.4 : α) 0.8 ⟨0, 1 / 4, 1, 0.5, 1, 0, 0⟩ (-2)).1| := by
  have hval : (nextSample (0.4 : α) 0.8 ⟨0, 1 / 4, 1, 0.5, 1, 0, 0⟩ (-2)).1 = -2 := by
    have hneg : (-2 : α) < 0.4 := by norm_num
    have hph : ¬ ((0 : α) + 1 / 4 ≥ 1) := by norm_num
    have hfold : ¬ ((2 : α) * (0 + 1 / 4) - 1 ≤ -2 / 0.4) := by norm_num
    simp only [nextSample, setWaveformParameters, if_pos hneg, if_neg hph, rectifier,
      if_neg hfold]
    norm_num
  refine ⟨fun s p hp _ hp0 hp1 hi0 hi1 => ?_, hval, ?_⟩
  · have hb := nextSample_abs_le (0.4 : α) 0.8 (by norm_num) (by norm_num) s p hp
      (le_of_lt hi0) hi1 hp0 hp1
    have := abs_nonneg s.amplitude
    linarith
  · rw [hval]
    norm_num

/-- Instance of `nextSample_within_unit_nominal` over `ℚ`: position `1`, phase
`1/4`, increment `1/10`, amplitude `3`. -/
theorem nextSample_within_unit_nominal_witness :
    ((0 : ℚ) ≤ 1 ∧ (1 : ℚ) ≤ 1.1) ∧
    |(nextSample (0.4 : ℚ) 0.8 ⟨1 / 4, 1 / 10, 3, 0.5, 1, 0, 0⟩ 1).1| ≤ |(3 : ℚ)| :=
  ⟨⟨by norm_num, by norm_num⟩,
   nextSample_within_unit_nominal.1 (⟨1 / 4, 1 / 10, 3, 0.5, 1, 0, 0⟩ : Oscillator ℚ) 1
     (by norm_num) (by norm_num) (by norm_num) (by norm_num) (by norm_num) (by norm_num)⟩

/-- C16: with `splitPointA = 0.4` and `splitPointB = 0.8`, for every control
position `p ≥ 0`, every state with phase in `[0, 1)`, every increment with
`0 ≤ inc < 1` and every amplitude `a`, the sample returned by `nextSample p`
satisfies `|sample| ≤ |a| / 2`. -/
theorem nextSample_output_bound (s : Oscillator α) (p : α) (hp : 0 ≤ p)
    (hp0 : 0 ≤ s.phase) (hp1 : s.phase < 1) (hi0 : 0 ≤ s.inc) (hi1 : s.inc < 1) :
    |(nextSample 0.4 0.8 s p).1| ≤ |s.amplitude| / 2 :=
  nextSample_abs_le (0.4 : α) 0.8 (by norm_num) (by norm_num) s p hp hi0 hi1 hp0 hp1

/-- Instance of `nextSample_output_bound` over `ℚ`: position `11/10`, phase
`9/10`, increment `3/10`, amplitude `-2`. -/
theorem nextSample_output_bound_witness :
    (0 : ℚ) ≤ 11 / 10 ∧
    |(nextSample (0.4 : ℚ) 0.8 ⟨9 / 10, 3 / 10, -2, 0.5, 1, 0, 0⟩ (11 / 10)).1|
      ≤ |(-2 : ℚ)| / 2 :=
  ⟨by norm_num,
   nextSample_output_bound (⟨9 / 10, 3 / 10, -2, 0.5, 1, 0, 0⟩ : Oscillator ℚ) (11 / 10)
     (by norm_num) (by norm_num) (by norm_num) (by norm_num) (by norm_num)⟩

/-- C13: for every threshold `T` in `[0, 1]` and every input `x` in `[-1, 1]`,
`rectifier x T` lies in `[-(1 + T)/2, (1 + T)/2]`, an interval symmetric about
zero, and both ends are attained: the lower end at `x = -1`, and at `x = 1` when
`T < 1`; the upper end at `x = T`. -/
theorem rectifier_recentred (T : α) (hT0 : 0 ≤ T) (_hT1 : T ≤ 1) :
    (∀ x, -1 ≤ x → x ≤ 1 → -((1 + T) / 2) ≤ rectifier x T ∧ rectifier x T ≤ (1 + T) / 2) ∧
    rectifier (-1) T = -((1 + T) / 2) ∧
    (T < 1 → rectifier 1 T = -((1 + T) / 2)) ∧
    rectifier T T = (1 + T) / 2 := by
  refine ⟨fun x hx0 hx1 => ?_, ?_, fun h => ?_, ?_⟩
  · have h := rectifier_mem x T hT0 hx0 hx1
    constructor
    · linarith [h.1]
    · exact h.2
  · have h : (-1 : α) ≤ T := by linarith
    simp only [rectifier, if_pos h]
    ring
  · simp only [rectifier, if_neg (not_le.mpr h)]
    ring
  · simp only [rectifier, if_pos (le_refl T)]
    ring

/-- Instance of `rectifier_recentred` over `ℚ`: threshold `1/2`, with the upper
end `3/4` reached at `x = 1/2` and the lower end `-3/4` at `x = 1`. -/
theorem rectifier_recentred_witness :
    ((0 : ℚ) ≤ 1 / 2 ∧ (1 / 2 : ℚ) ≤ 1) ∧
    rectifier (1 / 2 : ℚ) (1 / 2) = (1 + 1 / 2) / 2 ∧
    rectifier (1 : ℚ) (1 / 2) = -((1 + 1 / 2) / 2) :=
  ⟨⟨by norm_num, by norm_num⟩,
   (rectifier_recentred (1 / 2 : ℚ) (by norm_num) (by norm_num)).2.2.2,
   (rectifier_recentred (1 / 2 : ℚ) (by norm_num) (by norm_num)).2.2.1 (by norm_num)⟩

/-- C14: with `splitPointA = 0.4` and `splitPointB = 0.8`, for every control
position `p` with `0.4 ≤ p ≤ 0.8`, every state with phase in `[0, 1)` and `inc` in
`[0, 1)`, `nextSample p = amplitude * ((1 - t) * s + t * c) / 2`, where
`t = (p - 0.4)/0.4`, `s = 2 * phase' - 1` is the sawtooth of the advanced phase
(the rectifier at threshold `1` passes it through) and `c = 1` if `s ≤ 0.08`,
else `-1` when `p < 0.8` and `0` when `p = 0.8`. -/
theorem nextSample_regionB_crossfade (s : Oscillator α) (p : α)
    (hpA : 0.4 ≤ p) (hpB : p ≤ 0.8)
    (hp0 : 0 ≤ s.phase) (hp1 : s.phase < 1) (hi0 : 0 ≤ s.inc) (hi1 : s.inc < 1) :
    rectifier (2 * (nextSample 0.4 0.8 s p).2.phase - 1) 1
      = 2 * (nextSample 0.4 0.8 s p).2.phase - 1 ∧
    (nextSample 0.4 0.8 s p).1 =
      s.amplitude *
        ((1 - (p - 0.4) / 0.4) * (2 * (nextSample 0.4 0.8 s p).2.phase - 1)
          + (p - 0.4) / 0.4 *
            (if 2 * (nextSample 0.4 0.8 s p).2.phase - 1 ≤ 0.08 then 1
             else if p < 0.8 then -1 else 0)) / 2 := by
  have hph := nextSample_phase_mem 0.4 0.8 s p hi0 hi1 hp0 hp1
  have hx1 : 2 * (nextSample 0.4 0.8 s p).2.phase - 1 ≤ 1 := by linarith [hph.2]
  have hrect : rectifier (2 * (nextSample 0.4 0.8 s p).2.phase - 1) 1
      = 2 * (nextSample 0.4 0.8 s p).2.phase - 1 := by
    simp [rectifier, hx1]
  have hden : (0.8 : α) - 0.4 = 0.4 := by norm_num
  have hthr : ((0 : α) + 0.2) * 0.4 = 0.08 := by norm_num
  have hR : setWaveformParameters 0.4 0.8 s p =
      { s with
        rectThreshold := 1
        rectGain := 1 - (p - 0.4) / 0.4
        compThreshold := 0
        compGain := (p - 0.4) / 0.4 } := by
    simp only [setWaveformParameters, if_neg (not_lt.mpr hpA), if_pos hpB, hden]
  refine ⟨hrect, ?_⟩
  rw [nextSample_fst, hR]
  simp only [hrect, comparator, hthr, gt_iff_lt]
  by_cases hc : 2 * (nextSample 0.4 0.8 s p).2.phase - 1 ≤ 0.08
  · simp only [if_pos hc, if_neg (not_lt.mpr hc)]
    split_ifs <;> ring
  · simp only [if_neg hc, if_pos (not_le.mp hc)]
    split_ifs <;> ring

/-- Instance of `nextSample_regionB_crossfade` over `ℚ`: position `3/5`
(`t = 1/2`), phase `1/2`, increment `1/4`, amplitude `1`. -/
theorem nextSample_regionB_crossfade_witness :
    ((0.4 : ℚ) ≤ 3 / 5 ∧ (3 / 5 : ℚ) ≤ 0.8) ∧
    (nextSample (0.4 : ℚ) 0.8 ⟨1 / 2, 1 / 4, 1, 0.5, 1, 0, 0⟩ (3 / 5)).1 =
      1 * ((1 - (3 / 5 - 0.4) / 0.4)
            * (2 * (nextSample (0.4 : ℚ) 0.8 ⟨1 / 2, 1 / 4, 1, 0.5, 1, 0, 0⟩ (3 / 5)).2.phase - 1)
          + (3 / 5 - 0.4) / 0.4 *
            (if 2 * (nextSample (0.4 : ℚ) 0.8 ⟨1 / 2, 1 / 4, 1, 0.5, 1, 0, 0⟩ (3 / 5)).2.phase - 1
                ≤ 0.08 then 1
             else if (3 / 5 : ℚ) < 0.8 then -1 else 0)) / 2 :=
  ⟨⟨by norm_num, by norm_num⟩,
   (nextSample_regionB_crossfade (⟨1 / 2, 1 / 4, 1, 0.5, 1, 0, 0⟩ : Oscillator ℚ) (3 / 5)
     (by norm_num) (by norm_num) (by norm_num) (by norm_num) (by norm_num) (by norm_num)).2⟩

/-- C17: whenever `splitPointA < splitPointB`, for every control position `v`,
after `setWaveformParameters v` the gains satisfy `rectGain + compGain = 1`, and
both gains lie in `[0, 1]`. -/
theorem gains_sum_one (a b : α) (hab : a < b) (s : Oscillator α) (v : α) :
    (setWaveformParameters a b s v).rectGain + (setWaveformParameters a b s v).compGain = 1 ∧
    (0 ≤ (setWaveformParameters a b s v).rectGain ∧
      (setWaveformParameters a b s v).rectGain ≤ 1) ∧
    (0 ≤ (setWaveformParameters a b s v).compGain ∧
      (setWaveformParameters a b s v).compGain ≤ 1) := by
  obtain ⟨h, h0, h1⟩ := gains_mem a b hab s v
  refine ⟨by rw [h]; ring, ⟨by rw [h]; linarith, by rw [h]; linarith⟩, h0, h1⟩

/-- Instance of `gains_sum_one` over `ℚ` at the nominal split points and `v = 1/2`. -/
theorem gains_sum_one_witness :
    (0.4 : ℚ) < 0.8 ∧
    (setWaveformParameters (0.4 : ℚ) 0.8 (Oscillator.init (1 / 100) 1) (1 / 2)).rectGain
      + (setWaveformParameters (0.4 : ℚ) 0.8 (Oscillator.init (1 / 100) 1) (1 / 2)).compGain
      = 1 :=
  ⟨by norm_num,
   (gains_sum_one (0.4 : ℚ) 0.8 (by norm_num) (Oscillator.init (1 / 100) 1) (1 / 2)).1⟩

/-- C15: for every `inc` with `0 ≤ inc < 1`, every starting phase `p0` in
`[0, 1)`, every sequence of control positions and every `n ≥ 0`, the phase after
`n` successive `nextSample` calls is the fractional part of `p0 + n * inc`, that
is `p0 + n * inc - ⌊p0 + n * inc⌋`: the single-subtraction wrap implements
addition modulo one. -/
theorem nextSamples_phase_closed_form [FloorRing α] (a b : α) (s : Oscillator α)
    (positions : List α)
    (hi0 : 0 ≤ s.inc) (hi1 : s.inc < 1) (hp0 : 0 ≤ s.phase) (hp1 : s.phase < 1) :
    (nextSamples a b s positions).2.phase =
      s.phase + (positions.length : α) * s.inc
        - (⌊s.phase + (positions.length : α) * s.inc⌋ : α) := by
  rw [nextSamples_phase_fract a b positions s hi0 hi1 hp0 hp1]
  rfl

/-- Instance of `nextSamples_phase_closed_form` over `ℚ`: three calls from phase
`1/2` with increment `3/10` end at phase `2/5 = 7/5 - ⌊7/5⌋`. -/
theorem nextSamples_phase_closed_form_witness :
    ((0 : ℚ) ≤ 3 / 10 ∧ (3 / 10 : ℚ) < 1 ∧ (0 : ℚ) ≤ 1 / 2 ∧ (1 / 2 : ℚ) < 1) ∧
    (nextSamples (0.4 : ℚ) 0.8 ⟨1 / 2, 3 / 10, 1, 0.5, 1, 0, 0⟩ [0, 1 / 2, 1]).2.phase =
      1 / 2 + (([0, 1 / 2, 1] : List ℚ).length : ℚ) * (3 / 10)
        - (⌊(1 / 2 : ℚ) + (([0, 1 / 2, 1] : List ℚ).length : ℚ) * (3 / 10)⌋ : ℚ) :=
  ⟨⟨by norm_num, by norm_num, by norm_num, by norm_num⟩,
   nextSamples_phase_closed_form (0.4 : ℚ) 0.8 ⟨1 / 2, 3 / 10, 1, 0.5, 1, 0, 0⟩ [0, 1 / 2, 1]
     (by norm_num) (by norm_num) (by norm_num) (by norm_num)⟩

/-! ## The fold at the rectifier threshold (over `ℝ`) -/

section Fold

open Filter Topology

/-- Just above the threshold the rectifier follows the fold branch, whose limit
at the threshold is `-T^2 + (1 - T)/2`. -/
theorem rectifier_tendsto_right (T : ℝ) :
    Tendsto (fun x : ℝ => rectifier x T) (𝓝[>] T) (𝓝 (-T ^ 2 + (1 - T) / 2)) := by
  have hg : Continuous (fun x : ℝ => T - (T + 1) * x + (1 - T) / 2) :=
    (continuous_const.sub (continuous_const.mul continuous_id)).add continuous_const
  have hlim : Tendsto (fun x : ℝ => T - (T + 1) * x + (1 - T) / 2) (𝓝[>] T)
      (𝓝 (-T ^ 2 + (1 - T) / 2)) := by
    have h := (hg.tendsto T).mono_left (nhdsWithin_le_nhds (s := Set.Ioi T))
    have hv : T - (T + 1) * T + (1 - T) / 2 = -T ^ 2 + (1 - T) / 2 := by ring
    rwa [hv] at h
  refine hlim.congr' ?_
  refine eventually_nhdsWithin_of_forall (fun x hx => ?_)
  have hx' : ¬ x ≤ T := not_le.mpr hx
  simp only [rectifier, if_neg hx']

/-- The rectifier is continuous at its threshold exactly when the two branches
meet there. -/
theorem rectifier_continuousAt_iff (T : ℝ) :
    ContinuousAt (fun x : ℝ => rectifier x T) T ↔ T = 0 ∨ T = -1 := by
  constructor
  · intro hc
    have h1 : Tendsto (fun x : ℝ => rectifier x T) (𝓝[>] T) (𝓝 (rectifier T T)) :=
      hc.tendsto.mono_left (nhdsWithin_le_nhds (s := Set.Ioi T))
    have he := tendsto_nhds_unique h1 (rectifier_tendsto_right T)
    simp only [rectifier, if_pos (le_refl T)] at he
    have hz : T * (T + 1) = 0 := by nlinarith
    rcases mul_eq_zero.mp hz with h | h
    · exact Or.inl h
    · exact Or.inr (by linarith)
  · intro h
    have hmeet : ∀ x : ℝ, x = T → x = T - (T + 1) * x := by
      intro x hx
      subst hx
      rcases h with h | h <;> subst h <;> norm_num
    have hcont : Continuous (fun x : ℝ => rectifier x T) := by
      unfold rectifier
      exact (Continuous.if_le continuous_id
        (continuous_const.sub (continuous_const.mul continuous_id))
        continuous_id continuous_const hmeet).add continuous_const
    exact hcont.continuousAt

/-- In Region A, while the advanced phase does not wrap, the generated waveform is
the rectified sawtooth scaled by `amplitude / 2`. -/
theorem waveform_regionA (a b : α) (s : Oscillator α) (p φ : α) (hp : p < a)
    (hφ : φ + s.inc < 1) :
    waveform a b s p φ = s.amplitude * rectifier (2 * (φ + s.inc) - 1) (p / a) / 2 := by
  have hR : setWaveformParameters a b { s with phase := φ } p =
      { s with phase := φ, rectThreshold := p / a, rectGain := 1, compGain := 0,
               compThreshold := 0 } := by
    simp only [setWaveformParameters, if_pos hp]
  have hph : (nextSample a b { s with phase := φ } p).2.phase = φ + s.inc := by
    rw [nextSample_phase]
    exact if_neg (not_le.mpr hφ)
  unfold waveform
  rw [nextSample_fst, hph, hR]
  simp

/-- With amplitude `0` the generated waveform is identically `0`. -/
theorem waveform_amplitude_zero (a b : α) (s : Oscillator α) (p φ : α)
    (h0 : s.amplitude = 0) : waveform a b s p φ = 0 := by
  unfold waveform
  rw [nextSample_fst]
  simp [h0]

/-- The generated waveform at the phase where the sawtooth reaches the
threshold `T = p / a`. -/
theorem waveform_at_fold (a b : α) (s : Oscillator α) (p : α) (hp : p < a)
    (hT : p / a < 1) :
    waveform a b s p ((p / a + 1) / 2 - s.inc)
      = s.amplitude * rectifier (p / a) (p / a) / 2 := by
  rw [waveform_regionA a b s p _ hp (by linarith)]
  congr 3
  ring

/-- Just after the sawtooth has crossed the threshold `T = p / a`, the generated
waveform follows the fold branch scaled by `amplitude / 2`. -/
theorem waveform_tendsto_right (a b : ℝ) (s : Oscillator ℝ) (p : ℝ) (hp : p < a)
    (hT : p / a < 1) :
    Tendsto (waveform a b s p) (𝓝[>] ((p / a + 1) / 2 - s.inc))
      (𝓝 (s.amplitude * (-(p / a) ^ 2 + (1 - p / a) / 2) / 2)) := by
  have hg : Continuous (fun φ : ℝ =>
      s.amplitude * (p / a - (p / a + 1) * (2 * (φ + s.inc) - 1) + (1 - p / a) / 2) / 2) :=
    (continuous_const.mul (((continuous_const.sub (continuous_const.mul
      ((continuous_const.mul (continuous_id.add continuous_const)).sub continuous_const))).add
      continuous_const))).div_const 2
  have hlim : Tendsto (fun φ : ℝ =>
      s.amplitude * (p / a - (p / a + 1) * (2 * (φ + s.inc) - 1) + (1 - p / a) / 2) / 2)
      (𝓝[>] ((p / a + 1) / 2 - s.inc))
      (𝓝 (s.amplitude * (-(p / a) ^ 2 + (1 - p / a) / 2) / 2)) := by
    have h := (hg.tendsto ((p / a + 1) / 2 - s.inc)).mono_left
      (nhdsWithin_le_nhds (s := Set.Ioi ((p / a + 1) / 2 - s.inc)))
    have hv : s.amplitude * (p / a - (p / a + 1) * (2 * ((p / a + 1) / 2 - s.inc + s.inc) - 1)
        + (1 - p / a) / 2) / 2 = s.amplitude * (-(p / a) ^ 2 + (1 - p / a) / 2) / 2 := by
      ring
    rwa [hv] at h
  refine hlim.congr' ?_
  have hmem : Set.Ioo ((p / a + 1) / 2 - s.inc) (1 - s.inc)
      ∈ 𝓝[>] ((p / a + 1) / 2 - s.inc) :=
    Ioo_mem_nhdsWithin_Ioi' (by linarith)
  refine Filter.eventually_of_mem hmem (fun φ hφ => ?_)
  have hfold : ¬ (2 * (φ + s.inc) - 1 ≤ p / a) := by
    have := hφ.1
    intro hle
    linarith
  rw [waveform_regionA a b s p φ hp (by linarith [hφ.2])]
  simp only [rectifier, if_neg hfold]

/-- C18, as stated, fails: at the control position `0.2` with `splitPointA = 0.4`
the threshold is `T = 1/2`, so `T * (T + 1) = 3/4`; but with amplitude `1` and
increment `1/100` the generated waveform is `3/8` at the phase `37/50`, where the
sawtooth reaches `T`, and tends to `0` just after it: it jumps by `3/8`, not by
`3/4`. -/
theorem waveform_jump_counterexample :
    (setWaveformParameters (0.4 : ℝ) 0.8 (Oscillator.init (1 / 100) 1) 0.2).rectThreshold
      = 1 / 2 ∧
    waveform (0.4 : ℝ) 0.8 (Oscillator.init (1 / 100) 1) 0.2 (37 / 50) = 3 / 8 ∧
    Tendsto (waveform (0.4 : ℝ) 0.8 (Oscillator.init (1 / 100) 1) 0.2)
      (𝓝[>] (37 / 50 : ℝ)) (𝓝 0) ∧
    ¬ Tendsto (waveform (0.4 : ℝ) 0.8 (Oscillator.init (1 / 100) 1) 0.2)
      (𝓝[>] (37 / 50 : ℝ)) (𝓝 (3 / 8 - 1 / 2 * (1 / 2 + 1))) := by
  have hp : (0.2 : ℝ) < 0.4 := by norm_num
  have hT : (0.2 : ℝ) / 0.4 < 1 := by norm_num
  have hφ : ((0.2 : ℝ) / 0.4 + 1) / 2 - (Oscillator.init (1 / 100 : ℝ) 1).inc = 37 / 50 := by
    simp only [Oscillator.init]
    norm_num
  have hval := waveform_at_fold (0.4 : ℝ) 0.8 (Oscillator.init (1 / 100) 1) 0.2 hp hT
  have hlim := waveform_tendsto_right (0.4 : ℝ) 0.8 (Oscillator.init (1 / 100) 1) 0.2 hp hT
  rw [hφ] at hval hlim
  have h0 : (Oscillator.init (1 / 100 : ℝ) 1).amplitude
      * (-((0.2 : ℝ) / 0.4) ^ 2 + (1 - 0.2 / 0.4) / 2) / 2 = 0 := by
    simp only [Oscillator.init]
    norm_num
  rw [h0] at hlim
  refine ⟨?_, ?_, hlim, fun hbad => ?_⟩
  · simp only [setWaveformParameters, if_pos hp]
    norm_num
  · rw [hval]
    simp only [rectifier, if_pos (le_refl _), Oscillator.init]
    norm_num
  · have := tendsto_nhds_unique hlim hbad
    norm_num at this

/-- C18, amended: for every threshold `T`, `rectifier T T = T + (1 - T)/2` while
the limit of `rectifier x T` as `x` approaches `T` from above is
`-T^2 + (1 - T)/2`, so the rectifier output drops by `T * (T + 1)` at `x = T`;
`rectifier · T` is continuous at `x = T` if and only if `T = 0` or `T = -1`.
Hence for every control position strictly between `0` and `splitPointA` the
threshold `T = position / splitPointA` lies in `(0, 1)` and the rectifier output
jumps by `T * (T + 1) > 0` where the sawtooth crosses `T`; the generated waveform
is `amplitude * rectifier sawtooth T / 2`, so it jumps there by
`amplitude * T * (T + 1) / 2`: it is discontinuous when the amplitude is not `0`
and identically `0` when it is. -/
theorem rectifier_fold_jump (T : ℝ) :
    rectifier T T = T + (1 - T) / 2 ∧
    Tendsto (fun x : ℝ => rectifier x T) (𝓝[>] T) (𝓝 (-T ^ 2 + (1 - T) / 2)) ∧
    rectifier T T - (-T ^ 2 + (1 - T) / 2) = T * (T + 1) ∧
    (ContinuousAt (fun x : ℝ => rectifier x T) T ↔ T = 0 ∨ T = -1) ∧
    (∀ (a b : ℝ) (s : Oscillator ℝ) (p : ℝ), 0 < p → p < a →
      (setWaveformParameters a b s p).rectThreshold = p / a ∧
      (setWaveformParameters a b s p).rectGain = 1 ∧
      (nextSample a b s p).1 =
        s.amplitude * rectifier (2 * (nextSample a b s p).2.phase - 1) (p / a) / 2 ∧
      (0 < p / a ∧ p / a < 1) ∧
      0 < p / a * (p / a + 1) ∧
      Tendsto (fun x : ℝ => rectifier x (p / a)) (𝓝[>] (p / a))
        (𝓝 (rectifier (p / a) (p / a) - p / a * (p / a + 1))) ∧
      ¬ ContinuousAt (fun x : ℝ => rectifier x (p / a)) (p / a) ∧
      waveform a b s p ((p / a + 1) / 2 - s.inc)
        = s.amplitude * rectifier (p / a) (p / a) / 2 ∧
      Tendsto (waveform a b s p) (𝓝[>] ((p / a + 1) / 2 - s.inc))
        (𝓝 (waveform a b s p ((p / a + 1) / 2 - s.inc)
          - s.amplitude * (p / a * (p / a + 1)) / 2)) ∧
      (s.amplitude ≠ 0 → ¬ ContinuousAt (waveform a b s p) ((p / a + 1) / 2 - s.inc)) ∧
      (s.amplitude = 0 → ∀ φ, waveform a b s p φ = 0)) := by
  have hval : ∀ U : ℝ, rectifier U U = U + (1 - U) / 2 := by
    intro U
    simp only [rectifier, if_pos (le_refl U)]
  refine ⟨hval T, rectifier_tendsto_right T, by rw [hval T]; ring,
    rectifier_continuousAt_iff T, fun a b s p hp0 hpa => ?_⟩
  have ha : 0 < a := lt_trans hp0 hpa
  have hT0 : 0 < p / a := div_pos hp0 ha
  have hT1 : p / a < 1 := (div_lt_one ha).mpr hpa
  have hR : setWaveformParameters a b s p =
      { s with rectThreshold := p / a, rectGain := 1, compGain := 0, compThreshold := 0 } := by
    simp only [setWaveformParameters, if_pos hpa]
  have hw := waveform_at_fold a b s p hpa hT1
  have hwlim : Tendsto (waveform a b s p) (𝓝[>] ((p / a + 1) / 2 - s.inc))
      (𝓝 (waveform a b s p ((p / a + 1) / 2 - s.inc)
        - s.amplitude * (p / a * (p / a + 1)) / 2)) := by
    have h := waveform_tendsto_right a b s p hpa hT1
    have e : waveform a b s p ((p / a + 1) / 2 - s.inc)
          - s.amplitude * (p / a * (p / a + 1)) / 2
        = s.amplitude * (-(p / a) ^ 2 + (1 - p / a) / 2) / 2 := by
      rw [hw, hval]; ring
    rwa [e]
  refine ⟨by rw [hR], by rw [hR], by rw [nextSample_fst, hR]; simp,
    ⟨hT0, hT1⟩, mul_pos hT0 (by linarith), ?_, ?_, hw, hwlim, fun hamp hc => ?_,
    fun hamp φ => waveform_amplitude_zero a b s p φ hamp⟩
  · have h := rectifier_tendsto_right (p / a)
    have e : rectifier (p / a) (p / a) - p / a * (p / a + 1)
        = -(p / a) ^ 2 + (1 - p / a) / 2 := by
      rw [hval]; ring
    rwa [e]
  · rw [rectifier_continuousAt_iff]
    rintro (h | h) <;> linarith
  · have h1 : Tendsto (waveform a b s p) (𝓝[>] ((p / a + 1) / 2 - s.inc))
        (𝓝 (waveform a b s p ((p / a + 1) / 2 - s.inc))) :=
      hc.tendsto.mono_left (nhdsWithin_le_nhds (s := Set.Ioi ((p / a + 1) / 2 - s.inc)))
    have he := tendsto_nhds_unique h1 hwlim
    have hz : s.amplitude * (p / a * (p / a + 1)) = 0 := by linarith
    rcases mul_eq_zero.mp hz with h | h
    · exact hamp h
    · exact absurd h (ne_of_gt (mul_pos hT0 (by linarith)))

/-- Instance of `rectifier_fold_jump` at the nominal `splitPointA = 0.4` and the
control position `0.2`, from the constructed state with increment `1/100` and
amplitude `1`: the mapped threshold, and the right limit of the generated
waveform at the fold. -/
theorem rectifier_fold_jump_witness :
    ((0 : ℝ) < 0.2 ∧ (0.2 : ℝ) < 0.4) ∧
    (setWaveformParameters (0.4 : ℝ) 0.8 (Oscillator.init (1 / 100) 1) 0.2).rectThreshold
      = 0.2 / 0.4 ∧
    Tendsto (waveform (0.4 : ℝ) 0.8 (Oscillator.init (1 / 100) 1) 0.2)
      (𝓝[>] ((0.2 / 0.4 + 1) / 2 - (Oscillator.init (1 / 100 : ℝ) 1).inc))
      (𝓝 (waveform (0.4 : ℝ) 0.8 (Oscillator.init (1 / 100) 1) 0.2
            ((0.2 / 0.4 + 1) / 2 - (Oscillator.init (1 / 100 : ℝ) 1).inc)
          - (Oscillator.init (1 / 100 : ℝ) 1).amplitude * (0.2 / 0.4 * (0.2 / 0.4 + 1)) / 2)) :=
  ⟨⟨by norm_num, by norm_num⟩,
   ((rectifier_fold_jump 0).2.2.2.2 0.4 0.8 (Oscillator.init (1 / 100) 1) 0.2
     (by norm_num) (by norm_num)).1,
   ((rectifier_fold_jump 0).2.2.2.2 0.4 0.8 (Oscillator.init (1 / 100) 1) 0.2
     (by norm_num) (by norm_num)).2.2.2.2.2.2.2.2.1⟩

end Fold

/-! ## The plugin processor -/

/-- C19: for every buffer length `N ≥ 0` and every list of MIDI events whose
sample positions are all `≤ N`, the `render (sampleCount, bufferOffset)` calls
that `splitBufferByEvents` makes have strictly positive counts, the first has
`bufferOffset = 0`, each later `bufferOffset` is the previous
`bufferOffset + sampleCount`, and the counts sum to `N`; the `handleMIDI` calls
are those of the events of at most 3 bytes, in order, and each is made after all
audio before the event's position has been rendered. -/
theorem splitBufferByEvents_partition (N : Int) (hN : 0 ≤ N)
    (events : List MidiMessageMetadata) (hpos : ∀ e ∈ events, e.samplePosition ≤ N) :
    (∀ r ∈ renderCalls (splitBufferByEvents N events), 0 < r.1) ∧
    (∀ r, (renderCalls (splitBufferByEvents N events)).head? = some r → r.2 = 0) ∧
    List.Chain' (fun r₁ r₂ : Int × Int => r₂.2 = r₁.2 + r₁.1)
      (renderCalls (splitBufferByEvents N events)) ∧
    ((renderCalls (splitBufferByEvents N events)).map Prod.fst).sum = N ∧
    handleCalls (splitBufferByEvents N events) =
      (events.filter (fun e => decide (e.numBytes ≤ 3))).map midiBytes ∧
    (∀ es₁ e es₂, events = es₁ ++ e :: es₂ → e.numBytes ≤ 3 →
      ∃ pre post,
        splitBufferByEvents N events =
          pre ++ Call.handleMIDI (midiBytes e).1 (midiBytes e).2.1 (midiBytes e).2.2 :: post ∧
        e.samplePosition ≤ renderedSamples pre ∧
        handleCalls pre = (es₁.filter (fun e => decide (e.numBytes ≤ 3))).map midiBytes) := by
  obtain ⟨hT, hS, _, hle, hH⟩ := splitLoop_invariant events
  have hoffN := hle N hN hpos
  -- the last segment
  obtain ⟨last, hfinal, hlast⟩ : ∃ last, splitBufferByEvents N events =
      (events.foldl splitStep (0, [])).2 ++ last ∧
      (last = [] ∧ (events.foldl splitStep (0, [])).1 = N ∨
       0 < N - (events.foldl splitStep (0, [])).1 ∧
        last = [Call.render (N - (events.foldl splitStep (0, [])).1)
          (events.foldl splitStep (0, [])).1]) := by
    by_cases h : N - (events.foldl splitStep (0, [])).1 > 0
    · exact ⟨_, by simp only [splitBufferByEvents, if_pos h], Or.inr ⟨h, rfl⟩⟩
    · exact ⟨[], by simp only [splitBufferByEvents, if_neg h, List.append_nil],
        Or.inl ⟨rfl, by omega⟩⟩
  have hTfinal : Tiling 0 (renderCalls (splitBufferByEvents N events)) ∧
      ((renderCalls (splitBufferByEvents N events)).map Prod.fst).sum = N := by
    unfold renderedSamples at hS
    rw [hfinal, renderCalls_append]
    rcases hlast with ⟨hl, hoff⟩ | ⟨hl0, hl⟩
    · rw [hl]
      simp only [renderCalls, List.append_nil]
      exact ⟨hT, by rw [hS, hoff]⟩
    · rw [hl]
      simp only [renderCalls]
      rw [tiling_append_single, List.map_append, List.sum_append, hS]
      exact ⟨⟨hT, hl0, by simp [hS]⟩, by simp⟩
  refine ⟨tiling_pos 0 _ hTfinal.1, tiling_head 0 _ hTfinal.1, tiling_chain 0 _ hTfinal.1,
    hTfinal.2, ?_, ?_⟩
  · rw [hfinal, handleCalls_append, hH]
    rcases hlast with ⟨hl, _⟩ | ⟨_, hl⟩ <;> rw [hl] <;> simp [handleCalls]
  · intro es₁ e es₂ hev hshort
    obtain ⟨_, hS₁, _, _, hH₁⟩ := splitLoop_invariant es₁
    obtain ⟨pre, _, hcalls, hpre⟩ := splitStep_spec (es₁.foldl splitStep (0, [])) e
    obtain ⟨suffix, hsuf⟩ := splitLoop_extends es₂ (splitStep (es₁.foldl splitStep (0, [])) e)
    rw [if_pos hshort] at hcalls
    refine ⟨pre, suffix ++ last, ?_, ?_, ?_⟩
    · rw [hfinal, hev, List.foldl_append, List.foldl_cons, hsuf, hcalls]
      simp
    · rw [hpre, renderedSamples_append, hS₁]
      by_cases h1 : e.samplePosition - (es₁.foldl splitStep (0, [])).1 > 0
      · rw [if_pos h1]
        simp only [renderedSamples, renderCalls, List.map_cons, List.map_nil, List.sum_cons,
          List.sum_nil]
        omega
      · rw [if_neg h1]
        simp only [renderedSamples, renderCalls, List.map_nil, List.sum_nil]
        omega
    · rw [hpre, handleCalls_append, hH₁]
      split_ifs <;> simp [handleCalls]

/-- Instance of `splitBufferByEvents_partition`: a buffer of `8` samples with a
three-byte event at position `3` and a two-byte event at position `5`. -/
theorem splitBufferByEvents_partition_witness :
    ((0 : Int) ≤ 8 ∧
      ∀ e ∈ [(⟨[144, 60, 100], 3, 3⟩ : MidiMessageMetadata), ⟨[192, 7], 2, 5⟩],
        e.samplePosition ≤ 8) ∧
    ((renderCalls (splitBufferByEvents 8
        [(⟨[144, 60, 100], 3, 3⟩ : MidiMessageMetadata), ⟨[192, 7], 2, 5⟩])).map Prod.fst).sum
      = 8 ∧
    splitBufferByEvents 8 [(⟨[144, 60, 100], 3, 3⟩ : MidiMessageMetadata), ⟨[192, 7], 2, 5⟩]
      = [Call.render 3 0, Call.handleMIDI 144 60 100, Call.render 2 3,
         Call.handleMIDI 192 7 0, Call.render 3 5] :=
  ⟨⟨by decide, by decide⟩,
   (splitBufferByEvents_partition 8 (by decide)
     [(⟨[144, 60, 100], 3, 3⟩ : MidiMessageMetadata), ⟨[192, 7], 2, 5⟩] (by decide)).2.2.2.1,
   by decide⟩

/-- C20: for every call `render (buffer, sampleCount, bufferOffset)` with more
than one output channel, the write position handed to the synth for channel 0 is
the start of channel 0 plus `bufferOffset`, whereas the one handed for channel 1
is the start of channel 1 with no offset; so for `bufferOffset > 0` the two
channels are written over different sample ranges,
`[bufferOffset, bufferOffset + sampleCount)` versus `[0, sampleCount)`. -/
theorem render_channel_offsets (totalNumOutputChannels sampleCount bufferOffset : Int)
    (hch : 1 < totalNumOutputChannels) :
    (render totalNumOutputChannels sampleCount bufferOffset).1.1
      = some ((getWritePointer 0).add bufferOffset) ∧
    (render totalNumOutputChannels sampleCount bufferOffset).1.2
      = some (getWritePointer 1) ∧
    (render totalNumOutputChannels sampleCount bufferOffset).2 = sampleCount ∧
    ((getWritePointer 0).add bufferOffset).range sampleCount
      = Finset.Ico bufferOffset (bufferOffset + sampleCount) ∧
    (getWritePointer 1).range sampleCount = Finset.Ico 0 sampleCount ∧
    (0 < bufferOffset →
      ((getWritePointer 0).add bufferOffset).sample ≠ (getWritePointer 1).sample ∧
      (0 < sampleCount →
        ((getWritePointer 0).add bufferOffset).range sampleCount
          ≠ (getWritePointer 1).range sampleCount)) := by
  have hr0 : ((getWritePointer 0).add bufferOffset).range sampleCount
      = Finset.Ico bufferOffset (bufferOffset + sampleCount) := by
    simp [WritePointer.range, WritePointer.add, getWritePointer]
  have hr1 : (getWritePointer 1).range sampleCount = Finset.Ico 0 sampleCount := by
    simp [WritePointer.range, getWritePointer]
  refine ⟨by simp [render, hch], by simp [render, hch], rfl, hr0, hr1, fun ho => ⟨?_, fun hc => ?_⟩⟩
  · simp only [WritePointer.add, getWritePointer, zero_add]
    omega
  · rw [hr0, hr1]
    intro h
    have hmem : (0 : Int) ∈ Finset.Ico 0 sampleCount := Finset.mem_Ico.mpr ⟨le_refl 0, hc⟩
    rw [← h, Finset.mem_Ico] at hmem
    omega

/-- Instance of `render_channel_offsets`: stereo output, `3` samples from
`bufferOffset = 5`. -/
theorem render_channel_offsets_witness :
    (1 : Int) < 2 ∧
    (render 2 3 5).1.1 = some ((getWritePointer 0).add 5) ∧
    (render 2 3 5).1.2 = some (getWritePointer 1) :=
  ⟨by decide, (render_channel_offsets 2 3 5 (by decide)).1,
   (render_channel_offsets 2 3 5 (by decide)).2.1⟩

end KobolVCO
